import Mathlib

/-!
# A delaying TCP relay (`docker/proxy.go`)

The program listens on `:18080` and, for each accepted connection, starts a
relay task that sleeps two seconds, dials `web:8080` and then copies bytes in
both directions with `io.Copy`.

The embedding is a small-step machine.  One relay task has two threads of
control: the handler closure itself (`Tid.main`) and the goroutine started by
`go io.Copy(backend, conn)` (`Tid.copier`).  Everything the network does is an
input: what `Accept` and `Dial` return, what each `Read` on a connection
returns and how each `Write` on it ends.  An execution is a list of scheduler
picks; every externally visible action is appended to a trace.
-/

namespace Proxy

/-! ## Connections as seen by the program -/

abbrev Byte := Fin 256

/-- The two connections of a relay task: `conn` and `backend`. -/
inductive Side where
  | client
  | backend
  deriving DecidableEq, Repr

/-- The error returned by a `Read` next to the bytes: `nil`, `io.EOF`, or
another error. -/
inductive RErr where
  | none
  | eof
  | fail
  deriving DecidableEq, Repr

/-- One result of `Read`: the bytes placed in the buffer and the error. -/
structure ReadRes where
  data : List Byte
  err : RErr
  deriving DecidableEq, Repr

/-- How one `Write` ends: every byte written and a `nil` error, or an error
after `n` bytes (at most the length of the buffer).  A `net.Conn` keeps the
`io.Writer` contract (fewer bytes than asked only with an error), so the
`ErrShortWrite` exit of `io.Copy` does not arise. -/
inductive WriteRes where
  | ok
  | fail (n : Nat)
  deriving DecidableEq, Repr

/-- A connection handle that is not nil, described by what its peer does:
the address `RemoteAddr` reports, the results of the successive `Read` calls
(when they run out the next `Read` blocks: no data and no close arrives), and
the results of the successive `Write` calls (when they run out, writes
succeed). -/
structure Conn where
  remoteAddr : String
  reads : List ReadRes
  writes : List WriteRes
  deriving DecidableEq, Repr

/-- The program's own view of a connection: whether it has called `Close` on
it, and how many reads and writes it has made on it. -/
structure ConnSt where
  closed : Bool
  rd : Nat
  wr : Nat
  deriving DecidableEq, Repr

/-- `Read` on a connection.  After the program has closed the handle the call
fails at once; otherwise it returns the peer's next result, or blocks
(`none`) when there is none. -/
def readConn (peer : Conn) (c : ConnSt) : Option (ReadRes × ConnSt) :=
  if c.closed then some (⟨[], RErr.fail⟩, c)
  else
    match peer.reads[c.rd]? with
    | none => none
    | some r => some (r, { c with rd := c.rd + 1 })

/-- `Write` of `buf` on a connection: the number of bytes written, whether an
error was returned, and the new state of the handle. -/
def writeConn (peer : Conn) (c : ConnSt) (buf : List Byte) : Nat × Bool × ConnSt :=
  if c.closed then (0, true, c)
  else
    match peer.writes.getD c.wr WriteRes.ok with
    | WriteRes.ok => (buf.length, false, { c with wr := c.wr + 1 })
    | WriteRes.fail n => (min n buf.length, true, { c with wr := c.wr + 1 })

/-! ## Trace events -/

/-- Externally visible actions of one relay task. -/
inductive Event where
  /-- Line 20: `log.Printf("New connection from %s - delaying 2s ...")`. -/
  | logNew (addr : String)
  /-- Line 24: `time.Sleep` of the given number of nanoseconds returned. -/
  | sleep (ns : Nat)
  /-- Line 26: `net.Dial(network, address)` returned; `ok` iff `err == nil`. -/
  | dial (network address : String) (ok : Bool)
  /-- Line 28: `log.Printf("Backend connection failed: %v", err)`. -/
  | logFailed
  /-- Line 33: `log.Printf("Connected to backend for %s", ...)`. -/
  | logConnected (addr : String)
  /-- Line 36: the `go` statement started the copying goroutine. -/
  | go
  /-- A `Read` on the given connection returned `data` and `err`. -/
  | read (c : Side) (data : List Byte) (err : RErr)
  /-- A `Write` of `data` on the given connection wrote `n` bytes. -/
  | write (c : Side) (data : List Byte) (n : Nat) (failed : Bool)
  /-- The task called `Close` on the given connection. -/
  | close (c : Side)
  /-- A nil interface was dereferenced: run-time panic. -/
  | panic
  deriving DecidableEq, Repr

/-! ## `io.Copy` -/

/-- The error `io.Copy` returns: `nil` (the source reached `io.EOF`), the
error of a `Read`, or the error of a `Write`. -/
inductive CopyRes where
  | ok
  | readErr
  | writeErr
  deriving DecidableEq, Repr

/-- Where a call of `io.Copy(dst, src)` stands: about to `Read` from `src`;
holding a chunk (`nr > 0`) and the read's error, about to `Write` it to `dst`;
or returned. -/
inductive CopySt where
  | rd
  | wr (buf : List Byte) (er : RErr)
  | fin (res : CopyRes)
  deriving DecidableEq, Repr

/-- The end of one loop iteration of `io.Copy`: `if er != nil { if er != EOF
{ err = er }; break }`. -/
def afterChunk : RErr → CopySt
  | RErr.none => CopySt.rd
  | RErr.eof => CopySt.fin CopyRes.ok
  | RErr.fail => CopySt.fin CopyRes.readErr

/-- One action of `io.Copy(dst, src)`, the loop
`for { nr, er := src.Read(buf); if nr > 0 { nw, ew := dst.Write(buf[0:nr]);
if ew != nil { break } }; if er != nil { break } }`.
`s`, `d` name the source and destination, `sp`, `dp` are their peers and
`src`, `dst` the handle states.  `none`: the call is blocked in `Read`, or has
returned. -/
def copyStep (s d : Side) (sp dp : Conn) (src dst : ConnSt) :
    CopySt → Option (CopySt × ConnSt × ConnSt × Event)
  | CopySt.rd =>
    match readConn sp src with
    | none => none
    | some (r, src') =>
      some (if 0 < r.data.length then CopySt.wr r.data r.err else afterChunk r.err,
        src', dst, Event.read s r.data r.err)
  | CopySt.wr buf er =>
    match writeConn dp dst buf with
    | (n, failed, dst') =>
      some (if failed then CopySt.fin CopyRes.writeErr else afterChunk er,
        src, dst', Event.write d buf n failed)
  | CopySt.fin _ => none

/-! ## The relay task (the handler closure, lines 18-38) -/

/-- Threads of control of one relay task. -/
inductive Tid where
  | main
  | copier
  deriving DecidableEq, Repr

/-- Program counter of the handler closure. -/
inductive MainPc where
  /-- Line 19: `defer conn.Close()`. -/
  | deferConn
  /-- Line 20. -/
  | logNew
  /-- Line 24. -/
  | sleep
  /-- Line 26. -/
  | dial
  /-- Lines 27-29, `err != nil`. -/
  | logFailed
  /-- Line 31: `defer backend.Close()`. -/
  | deferBackend
  /-- Line 33. -/
  | logConnected
  /-- Line 36: `go io.Copy(backend, conn)`. -/
  | go
  /-- Line 37: inside `io.Copy(conn, backend)`. -/
  | copy
  /-- The function is returning: deferred calls run, last registered first. -/
  | ret
  /-- The function has returned. -/
  | done
  /-- The goroutine panicked (which ends the whole process). -/
  | panicked
  deriving DecidableEq, Repr

/-- State of one relay task. -/
structure State where
  pc : MainPc
  /-- Deferred `Close` calls, last registered first. -/
  defers : List Side
  /-- The call `io.Copy(conn, backend)` of line 37; set when the `go` statement
  of line 36 has run and control reaches line 37. -/
  b2c : Option CopySt
  /-- The goroutine `io.Copy(backend, conn)` of line 36, once started. -/
  c2b : Option CopySt
  client : ConnSt
  backend : ConnSt
  trace : List Event
  deriving DecidableEq, Repr

def second : Nat := 1000000000

/-- The argument of `time.Sleep` on line 24: `2 * time.Second`. -/
def delay : Nat := 2 * second

def ConnSt.fresh : ConnSt := { closed := false, rd := 0, wr := 0 }

/-- A relay task that has just been started. -/
def State.init : State :=
  { pc := MainPc.deferConn, defers := [], b2c := none, c2b := none,
    client := ConnSt.fresh, backend := ConnSt.fresh, trace := [] }

def State.emit (s : State) (e : Event) : State :=
  { s with trace := s.trace ++ [e] }

/-- A method call on a nil interface value. -/
def State.nilDeref (s : State) : State :=
  { s with pc := MainPc.panicked, trace := s.trace ++ [Event.panic] }

/-- `Close` on one of the two connections. -/
def State.closeSide (s : State) : Side → State
  | Side.client =>
    { s with client := { s.client with closed := true },
             trace := s.trace ++ [Event.close Side.client] }
  | Side.backend =>
    { s with backend := { s.backend with closed := true },
             trace := s.trace ++ [Event.close Side.backend] }

/-- One step of the handler closure `func(conn net.Conn)`.  `conn` is the
argument (`none`: a nil interface), `dialed` what `net.Dial` returns (`none`:
an error). -/
def handlerStep (conn dialed : Option Conn) (s : State) : Option State :=
  match s.pc with
  | MainPc.deferConn =>
    match conn with
    | none => some s.nilDeref
    | some _ => some { s with pc := MainPc.logNew, defers := Side.client :: s.defers }
  | MainPc.logNew =>
    match conn with
    | none => some s.nilDeref
    | some c => some { s.emit (Event.logNew c.remoteAddr) with pc := MainPc.sleep }
  | MainPc.sleep => some { s.emit (Event.sleep delay) with pc := MainPc.dial }
  | MainPc.dial =>
    some { s.emit (Event.dial "tcp" "web:8080" dialed.isSome) with
      pc := if dialed.isSome then MainPc.deferBackend else MainPc.logFailed }
  | MainPc.logFailed => some { s.emit Event.logFailed with pc := MainPc.ret }
  | MainPc.deferBackend =>
    some { s with pc := MainPc.logConnected, defers := Side.backend :: s.defers }
  | MainPc.logConnected =>
    match conn with
    | none => some s.nilDeref
    | some c => some { s.emit (Event.logConnected c.remoteAddr) with pc := MainPc.go }
  | MainPc.go =>
    some { s.emit Event.go with
      pc := MainPc.copy, c2b := some CopySt.rd, b2c := some CopySt.rd }
  | MainPc.copy =>
    match conn, dialed, s.b2c with
    | some _, some _, some (CopySt.fin _) => some { s with pc := MainPc.ret }
    | some c, some b, some st =>
      match copyStep Side.backend Side.client b c s.backend s.client st with
      | none => none
      | some (st', src', dst', e) =>
        some { s with b2c := some st', backend := src', client := dst',
                      trace := s.trace ++ [e] }
    | _, _, _ => none
  | MainPc.ret =>
    match s.defers with
    | [] => some { s with pc := MainPc.done }
    | d :: ds => some ({ s with defers := ds }.closeSide d)
  | MainPc.done => none
  | MainPc.panicked => none

/-- One step of the goroutine `go io.Copy(backend, conn)`. -/
def copierStep (conn dialed : Option Conn) (s : State) : Option State :=
  if s.pc = MainPc.panicked then none
  else
    match conn, dialed, s.c2b with
    | some c, some b, some st =>
      match copyStep Side.client Side.backend c b s.client s.backend st with
      | none => none
      | some (st', src', dst', e) =>
        some { s with c2b := some st', client := src', backend := dst',
                      trace := s.trace ++ [e] }
    | _, _, _ => none

/-- One step of the chosen thread; `none` when it cannot move. -/
def step (conn dialed : Option Conn) : Tid → State → Option State
  | Tid.main => handlerStep conn dialed
  | Tid.copier => copierStep conn dialed

/-- Run a schedule; a pick of a thread that cannot move is skipped. -/
def run (conn dialed : Option Conn) : List Tid → State → State
  | [], s => s
  | t :: ts, s =>
    match step conn dialed t s with
    | none => run conn dialed ts s
    | some s' => run conn dialed ts s'

def ping : List Byte := [80, 73, 78, 71]
def pong : List Byte := [80, 79, 78, 71]

def demoClient : Conn :=
  { remoteAddr := "10.0.0.7:5000", reads := [⟨ping, RErr.none⟩, ⟨[], RErr.eof⟩], writes := [] }
def demoBackend : Conn :=
  { remoteAddr := "web:8080", reads := [⟨pong, RErr.eof⟩], writes := [] }

/-- A schedule of the PING/PONG run: the handler up to its `io.Copy`, the
goroutine relays PING, the handler relays PONG and meets end-of-stream, the
goroutine meets end-of-stream, the handler returns. -/
def demoSched : List Tid :=
  [Tid.main, Tid.main, Tid.main, Tid.main, Tid.main, Tid.main, Tid.main,
   Tid.copier, Tid.copier, Tid.main, Tid.main, Tid.copier,
   Tid.main, Tid.main, Tid.main, Tid.main]

/-! ## The process (`main`, lines 10-40) -/

/-- What one call of `listener.Accept()` brings: the connection (`none`: an
error and a nil connection), and what `net.Dial` will return to the relay
task started for it. -/
structure Accepted where
  conn : Option Conn
  dialed : Option Conn
  deriving DecidableEq, Repr

/-- The inputs of a whole run of the process. -/
structure World where
  /-- Whether `net.Listen("tcp", ":18080")` succeeds. -/
  listen : Bool
  /-- The results of the successive `Accept` calls; when they run out the
  next `Accept` blocks. -/
  accepts : List Accepted
  deriving DecidableEq, Repr

/-- Program counter of `main`. -/
inductive ProcPc where
  /-- Line 11. -/
  | listen
  /-- Line 12: `defer listener.Close()`. -/
  | deferClose
  /-- Line 14. -/
  | logListening
  /-- Lines 16-39: the accept loop. -/
  | accept
  deriving DecidableEq, Repr

/-- Actions of `main`. -/
inductive ProcEvent where
  | listen (network address : String) (ok : Bool)
  | logListening
  /-- Line 17: `Accept` returned; `ok` iff the connection is not nil. -/
  | accept (ok : Bool)
  /-- Line 18: a relay task was started; its index. -/
  | spawn (task : Nat)
  /-- A goroutine panicked and nothing recovered: the process exits. -/
  | panic
  deriving DecidableEq, Repr

/-- State of the process. -/
structure Proc where
  pc : ProcPc
  /-- Whether the variable `listener` is not nil. -/
  listener : Bool
  /-- The relay tasks started so far, in order. -/
  tasks : List State
  /-- The process has been ended by a panic. -/
  aborted : Bool
  trace : List ProcEvent
  deriving DecidableEq, Repr

def Proc.init : Proc :=
  { pc := ProcPc.listen, listener := false, tasks := [], aborted := false, trace := [] }

def Proc.abort (p : Proc) : Proc :=
  { p with aborted := true, trace := p.trace ++ [ProcEvent.panic] }

/-- One step of the goroutine running `main`.  Both errors are discarded
(`listener, _ :=` and `clientConn, _ :=`), so after a failure the variable
holds a nil interface; evaluating a method of a nil interface, as
`defer listener.Close()` does, is a run-time panic. -/
def mainStep (w : World) (p : Proc) : Option Proc :=
  match p.pc with
  | ProcPc.listen =>
    some { p with pc := ProcPc.deferClose, listener := w.listen,
                  trace := p.trace ++ [ProcEvent.listen "tcp" ":18080" w.listen] }
  | ProcPc.deferClose =>
    if p.listener then some { p with pc := ProcPc.logListening } else some p.abort
  | ProcPc.logListening =>
    some { p with pc := ProcPc.accept, trace := p.trace ++ [ProcEvent.logListening] }
  | ProcPc.accept =>
    if p.listener then
      match w.accepts[p.tasks.length]? with
      | none => none
      | some a =>
        some { p with tasks := p.tasks ++ [State.init],
                      trace := p.trace ++
                        [ProcEvent.accept a.conn.isSome, ProcEvent.spawn p.tasks.length] }
    else some p.abort

/-- One step of thread `t` of relay task number `i`. -/
def taskStep (w : World) (i : Nat) (t : Tid) (p : Proc) : Option Proc :=
  match p.tasks[i]?, w.accepts[i]? with
  | some s, some a =>
    match step a.conn a.dialed t s with
    | none => none
    | some s' =>
      if s'.pc = MainPc.panicked then some { p.abort with tasks := p.tasks.set i s' }
      else some { p with tasks := p.tasks.set i s' }
  | _, _ => none

/-- A scheduler pick at process level. -/
inductive Pick where
  | loop
  | task (i : Nat) (t : Tid)
  deriving DecidableEq, Repr

/-- One step of the process; nothing runs once it has been aborted. -/
def procStep (w : World) (k : Pick) (p : Proc) : Option Proc :=
  if p.aborted then none
  else
    match k with
    | Pick.loop => mainStep w p
    | Pick.task i t => taskStep w i t p

/-- Run a process-level schedule; picks that cannot move are skipped. -/
def procRun (w : World) : List Pick → Proc → Proc
  | [], p => p
  | k :: ks, p =>
    match procStep w k p with
    | none => procRun w ks p
    | some p' => procRun w ks p'

/-! ## Reading traces -/

def Event.isCopy : Event → Bool
  | Event.read _ _ _ => true
  | Event.write _ _ _ _ => true
  | _ => false

def Event.isDial : Event → Bool
  | Event.dial _ _ _ => true
  | _ => false

def Event.isLog : Event → Bool
  | Event.logNew _ => true
  | Event.logFailed => true
  | Event.logConnected _ => true
  | _ => false

/-- The bytes an event takes from connection `c`. -/
def Event.readFrom (c : Side) : Event → List Byte
  | Event.read c' data _ => if c' = c then data else []
  | _ => []

/-- The bytes an event puts on connection `c`. -/
def Event.writtenTo (c : Side) : Event → List Byte
  | Event.write c' data n _ => if c' = c then data.take n else []
  | _ => []

/-- All bytes read from connection `c` in a trace, in order. -/
def bytesRead (c : Side) : List Event → List Byte
  | [] => []
  | e :: es => e.readFrom c ++ bytesRead c es

/-- All bytes written to connection `c` in a trace, in order. -/
def bytesWritten (c : Side) : List Event → List Byte
  | [] => []
  | e :: es => e.writtenTo c ++ bytesWritten c es

/-- The events of a trace other than reads and writes. -/
def ctl (tr : List Event) : List Event := tr.filter (fun e => !e.isCopy)

/-- The byte stream a peer sends: the chunks of its reads up to and including
the first read that carries an error. -/
def stream : List ReadRes → List Byte
  | [] => []
  | r :: rs => r.data ++ (if r.err = RErr.none then stream rs else [])

/-- The bytes carried by the first `k` reads. -/
def delivered (reads : List ReadRes) (k : Nat) : List Byte :=
  ((reads.take k).map ReadRes.data).flatten

/-- The trace of a task up to the return of `net.Dial`. -/
def opening (c : Conn) (ok : Bool) : List Event :=
  [Event.logNew c.remoteAddr, Event.sleep delay, Event.dial "tcp" "web:8080" ok]

/-- The trace of a task up to the start of copying. -/
def established (c : Conn) : List Event :=
  opening c true ++ [Event.logConnected c.remoteAddr, Event.go]

/-- The control events of a task that ran to its return. -/
def fullCtl (c : Conn) (dialed : Option Conn) : List Event :=
  if dialed.isSome then established c ++ [Event.close Side.backend, Event.close Side.client]
  else opening c false ++ [Event.logFailed, Event.close Side.client]

/-! ## Invariants of a relay task -/

/-- A state before the `go` statement, or on the dial-failure path: no copy
has started and the trace is known exactly. -/
def Early (s : State) (defers : List Side) (clientClosed : Bool) (tr : List Event) : Prop :=
  s.defers = defers ∧ s.b2c = none ∧ s.c2b = none ∧ s.client.closed = clientClosed ∧
  s.backend.closed = false ∧ s.trace = tr

/-- A state after the `go` statement: both copies exist and the control events
are those of an established relay followed by the closes made so far. -/
def Late (c : Conn) (dialed : Option Conn) (s : State) (defers : List Side)
    (clientClosed backendClosed : Bool) (closes : List Event) : Prop :=
  dialed.isSome = true ∧ s.defers = defers ∧ s.b2c.isSome = true ∧ s.c2b.isSome = true ∧
  s.client.closed = clientClosed ∧ s.backend.closed = backendClosed ∧
  ctl s.trace = established c ++ closes ∧ established c <+: s.trace

/-- The call `io.Copy(conn, backend)` has returned. -/
def B2cEnded (s : State) : Prop := ∃ r, s.b2c = some (CopySt.fin r)

/-- What is known about a task started on the connection `c`, by program
counter. -/
def PcInv (c : Conn) (dialed : Option Conn) (s : State) : Prop :=
  match s.pc with
  | MainPc.deferConn => Early s [] false []
  | MainPc.logNew => Early s [Side.client] false []
  | MainPc.sleep => Early s [Side.client] false [Event.logNew c.remoteAddr]
  | MainPc.dial => Early s [Side.client] false [Event.logNew c.remoteAddr, Event.sleep delay]
  | MainPc.logFailed => dialed = none ∧ Early s [Side.client] false (opening c false)
  | MainPc.deferBackend => dialed.isSome = true ∧ Early s [Side.client] false (opening c true)
  | MainPc.logConnected =>
    dialed.isSome = true ∧ Early s [Side.backend, Side.client] false (opening c true)
  | MainPc.go =>
    dialed.isSome = true ∧
    Early s [Side.backend, Side.client] false
      (opening c true ++ [Event.logConnected c.remoteAddr])
  | MainPc.copy => Late c dialed s [Side.backend, Side.client] false false []
  | MainPc.ret =>
    (dialed = none ∧ Early s [Side.client] false (opening c false ++ [Event.logFailed])) ∨
    (dialed = none ∧ Early s [] true (fullCtl c none)) ∨
    (B2cEnded s ∧ Late c dialed s [Side.backend, Side.client] false false []) ∨
    (B2cEnded s ∧ Late c dialed s [Side.client] false true [Event.close Side.backend]) ∨
    (B2cEnded s ∧
      Late c dialed s [] true true [Event.close Side.backend, Event.close Side.client])
  | MainPc.done =>
    (dialed = none ∧ Early s [] true (fullCtl c none)) ∨
    (B2cEnded s ∧
      Late c dialed s [] true true [Event.close Side.backend, Event.close Side.client])
  | MainPc.panicked => False

/-- The order of events in a trace: every sleep lasts exactly `delay`, every
dial comes after such a sleep, and every read, write and `go` comes after a
successful dial of `web:8080` that itself comes after the sleep. -/
def Ordered (tr : List Event) : Prop :=
  ∀ pre e post, tr = pre ++ e :: post →
    (∀ n, e = Event.sleep n → n = delay) ∧
    (e.isDial = true → Event.sleep delay ∈ pre) ∧
    (e.isCopy = true ∨ e = Event.go →
      ∃ p1 p2, pre = p1 ++ Event.dial "tcp" "web:8080" true :: p2 ∧ Event.sleep delay ∈ p1)

/-- No error among the first `k` reads. -/
def Clean (reads : List ReadRes) (k : Nat) : Prop :=
  ∀ r ∈ reads.take k, r.err = RErr.none

/-- Invariant of one call `io.Copy(dst, src)`.  `reads` are the results the
source will give, `rd` how many of them have been consumed, `R` the bytes read
from the source so far and `W` the bytes written to the destination so far. -/
def CopyInv (reads : List ReadRes) (st : Option CopySt) (rd : Nat) (R W : List Byte) : Prop :=
  R = delivered reads rd ∧ rd ≤ reads.length ∧ Clean reads (rd - 1) ∧
  match st with
  | none => rd = 0 ∧ W = []
  | some CopySt.rd => W = R ∧ Clean reads rd
  | some (CopySt.wr buf er) =>
    R = W ++ buf ∧ 0 < rd ∧ ∃ r, reads[rd - 1]? = some r ∧ r.err = er ∧ r.data = buf
  | some (CopySt.fin CopyRes.ok) =>
    W = R ∧ 0 < rd ∧ ∃ r, reads[rd - 1]? = some r ∧ r.err = RErr.eof
  | some (CopySt.fin CopyRes.readErr) => W = R
  | some (CopySt.fin CopyRes.writeErr) => W <+: R

/-- Both copies of a task with client `c` and backend `b` satisfy `CopyInv`. -/
def DataInv (c b : Conn) (s : State) : Prop :=
  CopyInv c.reads s.c2b s.client.rd
    (bytesRead Side.client s.trace) (bytesWritten Side.backend s.trace) ∧
  CopyInv b.reads s.b2c s.backend.rd
    (bytesRead Side.backend s.trace) (bytesWritten Side.client s.trace)

/-- Handler steps left before `net.Dial` has returned. -/
def rankOpen : MainPc → Nat
  | MainPc.deferConn => 4
  | MainPc.logNew => 3
  | MainPc.sleep => 2
  | MainPc.dial => 1
  | _ => 0

/-- Handler steps left before the return, on the dial-failure path. -/
def rankFail (s : State) : Nat :=
  match s.pc with
  | MainPc.deferConn => 7
  | MainPc.logNew => 6
  | MainPc.sleep => 5
  | MainPc.dial => 4
  | MainPc.logFailed => 3
  | MainPc.ret => 1 + s.defers.length
  | _ => 0

/-- Handler steps left before the return, once `io.Copy(conn, backend)` has
returned. -/
def rankEnd (s : State) : Nat :=
  match s.pc with
  | MainPc.copy => 4
  | MainPc.ret => 1 + s.defers.length
  | _ => 0

/-- What holds of one copy direction.  `reads` are the results the source
gives, `st` the state of the `io.Copy` call, `rd` the number of reads
consumed, `R` the bytes read from the source and `W` the bytes written to the
destination:
the bytes written are an initial segment of the bytes read; the bytes read are
the chunks of the reads consumed, in order, and an initial segment of the
source's stream; while a chunk is held, it is the chunk of the last read and
exactly what is missing; between iterations nothing is missing and no read
consumed carried an error; after a return without a write error nothing is
missing; and a return with a `nil` error happens at end-of-stream with the
whole stream written. -/
def Faithful (reads : List ReadRes) (st : Option CopySt) (rd : Nat) (R W : List Byte) : Prop :=
  W <+: R ∧ R = delivered reads rd ∧ R <+: stream reads ∧
  (∀ buf er, st = some (CopySt.wr buf er) →
    R = W ++ buf ∧ 0 < rd ∧ reads[rd - 1]? = some ⟨buf, er⟩) ∧
  (st = some CopySt.rd → W = R ∧ Clean reads rd) ∧
  (∀ r, st = some (CopySt.fin r) → r ≠ CopyRes.writeErr → W = R) ∧
  (st = some (CopySt.fin CopyRes.ok) →
    W = stream reads ∧ 0 < rd ∧ ∃ r, reads[rd - 1]? = some r ∧ r.err = RErr.eof)

/-- A client that sends PING and then stays silent. -/
def pingClient : Conn :=
  { remoteAddr := "10.0.0.7:5000", reads := [⟨ping, RErr.none⟩], writes := [] }

/-- A client that sends nothing and never closes. -/
def silentClient : Conn :=
  { remoteAddr := "10.0.0.7:5000", reads := [], writes := [] }

/-- A backend that closes its side at once: its first `Read` is
end-of-stream. -/
def endedBackend : Conn :=
  { remoteAddr := "web:8080", reads := [⟨[], RErr.eof⟩], writes := [] }

/-- The handler runs up to its `io.Copy`; the goroutine reads PING; the
handler meets the backend's end-of-stream and returns, closing both handles;
the goroutine then writes PING to the closed backend handle. -/
def lateWriteSched : List Tid :=
  [Tid.main, Tid.main, Tid.main, Tid.main, Tid.main, Tid.main, Tid.main, Tid.copier,
   Tid.main, Tid.main, Tid.main, Tid.main, Tid.main, Tid.copier]

/-- The run in which PING is read from the client and never written. -/
def lateWriteRun : State :=
  run (some pingClient) (some endedBackend) lateWriteSched State.init

/-- A client that closes its side at once: its first `Read` is end-of-stream
and writes to it fail. -/
def closedClient : Conn :=
  { remoteAddr := "10.0.0.7:5000", reads := [⟨[], RErr.eof⟩], writes := [WriteRes.fail 0] }

/-- A client whose first `Read` fails with an I/O error. -/
def failingClient : Conn :=
  { remoteAddr := "10.0.0.7:5000", reads := [⟨[], RErr.fail⟩], writes := [] }

/-- A backend that sends nothing and never closes. -/
def silentBackend : Conn :=
  { remoteAddr := "web:8080", reads := [], writes := [] }

/-- A backend whose first `Read` fails with an I/O error. -/
def failingBackend : Conn :=
  { remoteAddr := "web:8080", reads := [⟨[], RErr.fail⟩], writes := [] }

/-- The handler runs up to its `io.Copy` and tries once more; then the
goroutine makes its one read. -/
def stuckSched : List Tid :=
  [Tid.main, Tid.main, Tid.main, Tid.main, Tid.main, Tid.main, Tid.main, Tid.main,
   Tid.copier]

/-- An established relay whose client-to-backend copy has failed while the
backend stays silent. -/
def stuckRun : State :=
  run (some failingClient) (some silentBackend) stuckSched State.init

/-- An established relay whose backend-to-client copy has failed, run until
the handler has returned. -/
def failedRun : State :=
  run (some demoClient) (some failingBackend) (List.replicate 12 Tid.main) State.init

/-- The process after `k` steps of `main` when `net.Listen` has failed: the
start; `listener` nil and `defer listener.Close()` next; ended by the panic of
the method call on the nil `listener`. -/
def afterFailedListen : Nat → Proc
  | 0 => Proc.init
  | 1 =>
    { pc := ProcPc.deferClose, listener := false, tasks := [], aborted := false,
      trace := [ProcEvent.listen "tcp" ":18080" false] }
  | _ =>
    { pc := ProcPc.deferClose, listener := false, tasks := [], aborted := true,
      trace := [ProcEvent.listen "tcp" ":18080" false, ProcEvent.panic] }

/-- A world in which the second `Accept` fails: a client, then an error with a
nil connection, then another client. -/
def nilAcceptWorld : World :=
  { listen := true,
    accepts := [⟨some demoClient, some demoBackend⟩, ⟨none, none⟩,
                ⟨some demoClient, some demoBackend⟩] }

/-- The process starts, accepts the first client, whose relay task makes two
steps; the second `Accept` fails and its nil result is handed to a relay
task. -/
def nilAcceptPicks : List Pick :=
  [Pick.loop, Pick.loop, Pick.loop, Pick.loop, Pick.task 0 Tid.main, Pick.task 0 Tid.main,
   Pick.loop]

/-- Handler steps left, at most, before the return of a task whose dial
succeeded, when read number `k` of the backend carries an error or
end-of-stream: the seven statements before `io.Copy`, at most two actions for
each of the reads `0..k`, and the four steps of the return. -/
def rankLive (k : Nat) (s : State) : Nat :=
  match s.pc with
  | MainPc.deferConn => 2 * k + 13
  | MainPc.logNew => 2 * k + 12
  | MainPc.sleep => 2 * k + 11
  | MainPc.dial => 2 * k + 10
  | MainPc.deferBackend => 2 * k + 9
  | MainPc.logConnected => 2 * k + 8
  | MainPc.go => 2 * k + 7
  | MainPc.copy =>
    match s.b2c with
    | some CopySt.rd => 4 + 2 * (k + 1 - s.backend.rd)
    | some (CopySt.wr _ _) => 5 + 2 * (k + 1 - s.backend.rd)
    | _ => 4
  | MainPc.ret => 1 + s.defers.length
  | _ => 0

/-- Why a call `io.Copy(dst, src)` has ended with an error, in terms of the
source peer `sp`, the destination peer `dp` and the two handles: a read error
means that the source handle has been closed by the task or that the last
read consumed failed; a write error means that the destination handle has
been closed by the task or that one of the writes made on it failed.  While a
chunk is held, its read's error is the one remembered. -/
def EndCause (sp dp : Conn) (st : Option CopySt) (src dst : ConnSt) : Prop :=
  (st = some (CopySt.fin CopyRes.readErr) →
    src.closed = true ∨
    (0 < src.rd ∧ ∃ r, sp.reads[src.rd - 1]? = some r ∧ r.err = RErr.fail)) ∧
  (st = some (CopySt.fin CopyRes.writeErr) →
    dst.closed = true ∨ ∃ i n, i < dst.wr ∧ dp.writes[i]? = some (WriteRes.fail n)) ∧
  (∀ buf er, st = some (CopySt.wr buf er) →
    0 < src.rd ∧ ∃ r, sp.reads[src.rd - 1]? = some r ∧ r.err = er)

/-- Both copies of a task end with an error only for a cause. -/
def EndInv (c b : Conn) (s : State) : Prop :=
  EndCause c b s.c2b s.client s.backend ∧ EndCause b c s.b2c s.backend s.client

/-! ## Proofs -/

theorem ctl_append (xs ys : List Event) : ctl (xs ++ ys) = ctl xs ++ ctl ys := by
  simp [ctl]

theorem ctl_nil : ctl [] = [] := rfl

/-- An invariant of `step` that holds initially holds after every schedule. -/
theorem run_induction (conn dialed : Option Conn) (P : State → Prop)
    (hstep : ∀ t s s', P s → step conn dialed t s = some s' → P s')
    (sched : List Tid) (s : State) (h : P s) : P (run conn dialed sched s) := by
  induction sched generalizing s with
  | nil => simpa [run] using h
  | cons t ts ih =>
    simp only [run]
    cases hs : step conn dialed t s with
    | none => exact ih s h
    | some s' => exact ih s' (hstep t s s' h hs)

theorem readConn_some (sp : Conn) (src src' : ConnSt) (r : ReadRes)
    (h : readConn sp src = some (r, src')) :
    src'.closed = src.closed ∧ src'.wr = src.wr ∧
    ((src.closed = true ∧ r = ⟨[], RErr.fail⟩ ∧ src' = src) ∨
     (src.closed = false ∧ sp.reads[src.rd]? = some r ∧ src'.rd = src.rd + 1)) := by
  unfold readConn at h
  by_cases hc : src.closed = true
  · simp [hc] at h
    obtain ⟨h1, h2⟩ := h
    subst h1 h2
    simp [hc]
  · simp [hc] at h
    cases hr : sp.reads[src.rd]? with
    | none => simp [hr] at h
    | some r0 =>
      simp [hr] at h
      obtain ⟨h1, h2⟩ := h
      subst h1 h2
      simp [hc]

theorem writeConn_spec (dp : Conn) (dst dst' : ConnSt) (buf : List Byte) (n : Nat)
    (failed : Bool) (h : writeConn dp dst buf = (n, failed, dst')) :
    dst'.closed = dst.closed ∧ dst'.rd = dst.rd ∧ n ≤ buf.length ∧
    (failed = false → n = buf.length) := by
  unfold writeConn at h
  by_cases hc : dst.closed = true
  · simp [hc] at h
    obtain ⟨h1, h2, h3⟩ := h
    subst h1 h2 h3
    simp
  · have hc' : dst.closed = false := by simpa using hc
    simp only [hc, Bool.false_eq_true, if_false] at h
    cases hw : dp.writes.getD dst.wr WriteRes.ok with
    | ok =>
      simp only [hw, Prod.mk.injEq] at h
      obtain ⟨h1, h2, h3⟩ := h
      subst h1 h2 h3
      exact ⟨hc'.symm, rfl, le_refl _, fun _ => rfl⟩
    | fail k =>
      simp only [hw, Prod.mk.injEq] at h
      obtain ⟨h1, h2, h3⟩ := h
      subst h1 h2 h3
      exact ⟨hc'.symm, rfl, Nat.min_le_right _ _, fun h => by simp at h⟩

/-- What one action of `io.Copy` is: a read of the source or a write of the
held chunk to the destination. -/
theorem copyStep_cases (sd dd : Side) (sp dp : Conn) (src dst : ConnSt) (st st' : CopySt)
    (src' dst' : ConnSt) (e : Event)
    (h : copyStep sd dd sp dp src dst st = some (st', src', dst', e)) :
    (∃ r, st = CopySt.rd ∧ readConn sp src = some (r, src') ∧ dst' = dst ∧
      e = Event.read sd r.data r.err ∧
      st' = (if 0 < r.data.length then CopySt.wr r.data r.err else afterChunk r.err)) ∨
    (∃ buf er n failed, st = CopySt.wr buf er ∧ writeConn dp dst buf = (n, failed, dst') ∧
      src' = src ∧ e = Event.write dd buf n failed ∧
      st' = (if failed then CopySt.fin CopyRes.writeErr else afterChunk er)) := by
  cases st with
  | rd =>
    left
    simp only [copyStep] at h
    cases hr : readConn sp src with
    | none => simp [hr] at h
    | some p =>
      obtain ⟨r, s1⟩ := p
      simp only [hr, Option.some.injEq, Prod.mk.injEq] at h
      obtain ⟨h1, h2, h3, h4⟩ := h
      subst h2 h3 h4
      exact ⟨r, rfl, rfl, rfl, rfl, h1.symm⟩
  | wr buf er =>
    right
    simp only [copyStep] at h
    cases hw : writeConn dp dst buf with
    | mk n rest =>
      obtain ⟨failed, d1⟩ := rest
      simp only [hw, Option.some.injEq, Prod.mk.injEq] at h
      obtain ⟨h1, h2, h3, h4⟩ := h
      subst h2 h3 h4
      exact ⟨buf, er, n, failed, rfl, hw, rfl, rfl, h1.symm⟩
  | fin r => simp [copyStep] at h

theorem copyStep_event (sd dd : Side) (sp dp : Conn) (src dst : ConnSt) (st st' : CopySt)
    (src' dst' : ConnSt) (e : Event)
    (h : copyStep sd dd sp dp src dst st = some (st', src', dst', e)) :
    e.isCopy = true ∧ src'.closed = src.closed ∧ dst'.closed = dst.closed ∧
    src'.wr = src.wr ∧ dst'.rd = dst.rd := by
  rcases copyStep_cases sd dd sp dp src dst st st' src' dst' e h with
    ⟨r, -, hr, hd, he, -⟩ | ⟨buf, er, n, failed, -, hw, hs, he, -⟩
  · have := readConn_some sp src src' r hr
    subst hd he
    exact ⟨rfl, this.1, rfl, this.2.1, rfl⟩
  · have := writeConn_spec dp dst dst' buf n failed hw
    subst hs he
    exact ⟨rfl, rfl, this.1, rfl, this.2.1⟩

theorem ctl_snoc_copy (tr : List Event) (e : Event) (he : e.isCopy = true) :
    ctl (tr ++ [e]) = ctl tr := by
  simp [ctl, he]

theorem ctl_snoc_close (tr : List Event) (d : Side) :
    ctl (tr ++ [Event.close d]) = ctl tr ++ [Event.close d] := by
  simp [ctl, Event.isCopy]

/-- What a step of the copying goroutine changes. -/
theorem copierStep_spec (conn dialed : Option Conn) (s s' : State)
    (h : copierStep conn dialed s = some s') :
    ∃ c b st st' src' dst' e, conn = some c ∧ dialed = some b ∧ s.c2b = some st ∧
      copyStep Side.client Side.backend c b s.client s.backend st = some (st', src', dst', e) ∧
      s' = { s with c2b := some st', client := src', backend := dst',
                    trace := s.trace ++ [e] } := by
  unfold copierStep at h
  by_cases hp : s.pc = MainPc.panicked
  · simp [hp] at h
  · simp only [hp, if_false] at h
    cases conn with
    | none => simp at h
    | some c =>
      cases dialed with
      | none => simp at h
      | some b =>
        cases hst : s.c2b with
        | none => simp [hst] at h
        | some st =>
          simp only [hst] at h
          cases hc : copyStep Side.client Side.backend c b s.client s.backend st with
          | none => simp [hc] at h
          | some q =>
            obtain ⟨st', src', dst', e⟩ := q
            simp only [hc, Option.some.injEq] at h
            exact ⟨c, b, st, st', src', dst', e, rfl, rfl, rfl, hc, h.symm⟩

theorem early_no_copier (s : State) (d : List Side) (cc : Bool) (tr : List Event)
    (h : Early s d cc tr) (h1 : s.c2b.isSome = true) : False := by
  obtain ⟨-, -, h3, -⟩ := h
  simp [h3] at h1

theorem late_transfer (c : Conn) (dialed : Option Conn) (s s' : State) (d : List Side)
    (cc bc : Bool) (cl : List Event) (h : Late c dialed s d cc bc cl)
    (hd : s'.defers = s.defers) (hb : s'.b2c.isSome = s.b2c.isSome)
    (h2 : s'.c2b.isSome = true)
    (hcc : s'.client.closed = s.client.closed) (hbc : s'.backend.closed = s.backend.closed)
    (ht : ctl s'.trace = ctl s.trace) (hp : s.trace <+: s'.trace) :
    Late c dialed s' d cc bc cl := by
  obtain ⟨a1, a2, a3, -, a5, a6, a7, a8⟩ := h
  exact ⟨a1, hd.trans a2, hb.trans a3, h2, hcc.trans a5, hbc.trans a6, ht.trans a7,
    a8.trans hp⟩

/-- A step that only advances the goroutine keeps what is known by program
counter. -/
theorem pcInv_transfer (c : Conn) (dialed : Option Conn) (s s' : State)
    (h : PcInv c dialed s) (hpc : s'.pc = s.pc) (hd : s'.defers = s.defers)
    (hb : s'.b2c = s.b2c) (h1 : s.c2b.isSome = true) (h2 : s'.c2b.isSome = true)
    (hcc : s'.client.closed = s.client.closed) (hbc : s'.backend.closed = s.backend.closed)
    (ht : ctl s'.trace = ctl s.trace) (hpre : s.trace <+: s'.trace) : PcInv c dialed s' := by
  have hb' : s'.b2c.isSome = s.b2c.isSome := by rw [hb]
  have tr := fun d cc bc cl (x : Late c dialed s d cc bc cl) =>
    late_transfer c dialed s s' d cc bc cl x hd hb' h2 hcc hbc ht hpre
  have ne := fun d cc t (x : Early s d cc t) => early_no_copier s d cc t x h1
  have be : B2cEnded s → B2cEnded s' := fun ⟨r, hr⟩ => ⟨r, hb.trans hr⟩
  unfold PcInv at h ⊢
  rw [hpc]
  cases hp : s.pc <;> simp only [hp] at h ⊢
  case deferConn => exact (ne _ _ _ h).elim
  case logNew => exact (ne _ _ _ h).elim
  case sleep => exact (ne _ _ _ h).elim
  case dial => exact (ne _ _ _ h).elim
  case logFailed => exact (ne _ _ _ h.2).elim
  case deferBackend => exact (ne _ _ _ h.2).elim
  case logConnected => exact (ne _ _ _ h.2).elim
  case go => exact (ne _ _ _ h.2).elim
  case copy => exact tr _ _ _ _ h
  case ret =>
    rcases h with h | h | h | h | h
    · exact (ne _ _ _ h.2).elim
    · exact (ne _ _ _ h.2).elim
    · exact Or.inr (Or.inr (Or.inl ⟨be h.1, tr _ _ _ _ h.2⟩))
    · exact Or.inr (Or.inr (Or.inr (Or.inl ⟨be h.1, tr _ _ _ _ h.2⟩)))
    · exact Or.inr (Or.inr (Or.inr (Or.inr ⟨be h.1, tr _ _ _ _ h.2⟩)))
  case done =>
    rcases h with h | h
    · exact (ne _ _ _ h.2).elim
    · exact Or.inr ⟨be h.1, tr _ _ _ _ h.2⟩

theorem pcInv_handlerStep (c : Conn) (dialed : Option Conn) (s s' : State)
    (h : PcInv c dialed s) (hs : handlerStep (some c) dialed s = some s') :
    PcInv c dialed s' := by
  obtain ⟨pc, defers, b2c, c2b, client, backend, trace⟩ := s
  cases pc <;> simp only [PcInv, Early, Late] at h <;> simp only [handlerStep] at hs
  case deferConn =>
    obtain ⟨rfl, rfl, rfl, h4, h5, rfl⟩ := h
    simp only [Option.some.injEq] at hs
    subst hs
    simp [PcInv, Early, h4, h5]
  case logNew =>
    obtain ⟨rfl, rfl, rfl, h4, h5, rfl⟩ := h
    simp only [Option.some.injEq] at hs
    subst hs
    simp [PcInv, Early, h4, h5, State.emit]
  case sleep =>
    obtain ⟨rfl, rfl, rfl, h4, h5, rfl⟩ := h
    simp only [Option.some.injEq] at hs
    subst hs
    simp [PcInv, Early, h4, h5, State.emit]
  case dial =>
    obtain ⟨rfl, rfl, rfl, h4, h5, rfl⟩ := h
    simp only [Option.some.injEq] at hs
    subst hs
    cases dialed <;> simp [PcInv, Early, h4, h5, State.emit, opening]
  case logFailed =>
    obtain ⟨rfl, rfl, rfl, rfl, h4, h5, rfl⟩ := h
    simp only [Option.some.injEq] at hs
    subst hs
    simp [PcInv, Early, h4, h5, State.emit]
  case deferBackend =>
    obtain ⟨hd, rfl, rfl, rfl, h4, h5, rfl⟩ := h
    simp only [Option.some.injEq] at hs
    subst hs
    simp [PcInv, Early, h4, h5, hd]
  case logConnected =>
    obtain ⟨hd, rfl, rfl, rfl, h4, h5, rfl⟩ := h
    simp only [Option.some.injEq] at hs
    subst hs
    simp [PcInv, Early, h4, h5, hd, State.emit]
  case go =>
    obtain ⟨hd, rfl, rfl, rfl, h4, h5, rfl⟩ := h
    simp only [Option.some.injEq] at hs
    subst hs
    simp [PcInv, Late, h4, h5, hd, State.emit, ctl, opening, established, Event.isCopy]
  case copy =>
    obtain ⟨hd, rfl, hb, hc, h4, h5, h6, h7⟩ := h
    cases dialed with
    | none => simp at hd
    | some b =>
      cases b2c with
      | none => simp at hb
      | some st =>
        cases st with
        | fin r =>
          simp only [Option.some.injEq] at hs
          subst hs
          exact Or.inr (Or.inr (Or.inl ⟨⟨r, rfl⟩, rfl, rfl, rfl, hc, h4, h5, h6, h7⟩))
        | rd =>
          simp only at hs
          cases hq : copyStep Side.backend Side.client b c backend client CopySt.rd with
          | none => simp [hq] at hs
          | some q =>
            obtain ⟨st', src', dst', e⟩ := q
            simp only [hq, Option.some.injEq] at hs
            subst hs
            obtain ⟨e1, e2, e3, -, -⟩ := copyStep_event _ _ _ _ _ _ _ _ _ _ _ hq
            exact ⟨rfl, rfl, rfl, hc, e3.trans h4, e2.trans h5,
              (ctl_snoc_copy _ _ e1).trans h6, h7.trans (List.prefix_append _ _)⟩
        | wr buf er =>
          simp only at hs
          cases hq : copyStep Side.backend Side.client b c backend client (CopySt.wr buf er) with
          | none => simp [hq] at hs
          | some q =>
            obtain ⟨st', src', dst', e⟩ := q
            simp only [hq, Option.some.injEq] at hs
            subst hs
            obtain ⟨e1, e2, e3, -, -⟩ := copyStep_event _ _ _ _ _ _ _ _ _ _ _ hq
            exact ⟨rfl, rfl, rfl, hc, e3.trans h4, e2.trans h5,
              (ctl_snoc_copy _ _ e1).trans h6, h7.trans (List.prefix_append _ _)⟩
  case ret =>
    rcases h with ⟨hd, rfl, rfl, rfl, h4, h5, rfl⟩ | ⟨hd, rfl, rfl, rfl, h4, h5, rfl⟩ |
      ⟨he, hd, rfl, hb, hc, h4, h5, h6, h7⟩ | ⟨he, hd, rfl, hb, hc, h4, h5, h6, h7⟩ |
      ⟨he, hd, rfl, hb, hc, h4, h5, h6, h7⟩
    · simp only [Option.some.injEq] at hs
      subst hs
      exact Or.inr (Or.inl ⟨hd, rfl, rfl, rfl, rfl, h5, by simp [State.closeSide, fullCtl]⟩)
    · simp only [Option.some.injEq] at hs
      subst hs
      exact Or.inl ⟨hd, rfl, rfl, rfl, h4, h5, rfl⟩
    · simp only [Option.some.injEq] at hs
      subst hs
      refine Or.inr (Or.inr (Or.inr (Or.inl ⟨he, hd, rfl, hb, hc, h4, rfl, ?_,
        h7.trans (List.prefix_append _ _)⟩)))
      show ctl (trace ++ [Event.close Side.backend]) = _
      rw [ctl_snoc_close, h6]
      simp
    · simp only [Option.some.injEq] at hs
      subst hs
      refine Or.inr (Or.inr (Or.inr (Or.inr ⟨he, hd, rfl, hb, hc, rfl, h5, ?_,
        h7.trans (List.prefix_append _ _)⟩)))
      show ctl (trace ++ [Event.close Side.client]) = _
      rw [ctl_snoc_close, h6]
      simp
    · simp only [Option.some.injEq] at hs
      subst hs
      exact Or.inr ⟨he, hd, rfl, hb, hc, h4, h5, h6, h7⟩
  case done => simp at hs

/-- What is known by program counter holds in every state a schedule reaches. -/
theorem pcInv_step (c : Conn) (dialed : Option Conn) (t : Tid) (s s' : State)
    (h : PcInv c dialed s) (hs : step (some c) dialed t s = some s') :
    PcInv c dialed s' := by
  cases t with
  | main => exact pcInv_handlerStep c dialed s s' h hs
  | copier =>
    obtain ⟨c0, b, st, st', src', dst', e, -, -, h3, h4, rfl⟩ :=
      copierStep_spec _ _ _ _ hs
    obtain ⟨e1, e2, e3, -, -⟩ := copyStep_event _ _ _ _ _ _ _ _ _ _ _ h4
    exact pcInv_transfer c dialed s _ h rfl rfl rfl (by simp [h3]) rfl e2 e3
      (ctl_snoc_copy _ _ e1) (List.prefix_append _ _)

theorem pcInv_init (c : Conn) (dialed : Option Conn) : PcInv c dialed State.init := by
  simp [PcInv, State.init, Early, ConnSt.fresh]

theorem pcInv_run (c : Conn) (dialed : Option Conn) (sched : List Tid) :
    PcInv c dialed (run (some c) dialed sched State.init) :=
  run_induction (some c) dialed (PcInv c dialed) (fun t s s' => pcInv_step c dialed t s s')
    sched State.init (pcInv_init c dialed)

theorem ctl_early (c : Conn) (ok : Bool) : ctl (opening c ok) = opening c ok := by
  simp [ctl, opening, Event.isCopy]

/-- The control events of a reachable state are an initial segment of the one
full control sequence, and all of it once the task has returned. -/
theorem ctl_of_pcInv (c : Conn) (dialed : Option Conn) (s : State) (h : PcInv c dialed s) :
    ctl s.trace <+: fullCtl c dialed ∧ (s.pc = MainPc.done → ctl s.trace = fullCtl c dialed) ∧
    (s.c2b = none → ctl s.trace = s.trace) ∧
    (s.c2b.isSome = true → dialed.isSome = true ∧ established c <+: s.trace) := by
  unfold PcInv at h
  cases hp : s.pc <;> simp only [hp] at h
  case deferConn =>
    obtain ⟨-, -, h0, -, -, ht⟩ := h
    simp [ht, ctl, h0]
  case logNew =>
    obtain ⟨-, -, h0, -, -, ht⟩ := h
    simp [ht, ctl, h0]
  case sleep =>
    obtain ⟨-, -, h0, -, -, ht⟩ := h
    cases dialed <;> simp [ht, ctl, Event.isCopy, fullCtl, established, opening, h0]
  case dial =>
    obtain ⟨-, -, h0, -, -, ht⟩ := h
    cases dialed <;> simp [ht, ctl, Event.isCopy, fullCtl, established, opening, h0]
  case logFailed =>
    obtain ⟨rfl, -, -, h0, -, -, ht⟩ := h
    simp [ht, ctl, Event.isCopy, fullCtl, established, opening, h0]
  case deferBackend =>
    obtain ⟨hd, -, -, h0, -, -, ht⟩ := h
    simp [ht, ctl, Event.isCopy, fullCtl, established, opening, hd, h0]
  case logConnected =>
    obtain ⟨hd, -, -, h0, -, -, ht⟩ := h
    simp [ht, ctl, Event.isCopy, fullCtl, established, opening, hd, h0]
  case go =>
    obtain ⟨hd, -, -, h0, -, -, ht⟩ := h
    simp [ht, ctl, Event.isCopy, fullCtl, established, opening, hd, h0]
  case copy =>
    obtain ⟨hd, -, -, hc, -, -, ht, hp⟩ := h
    exact ⟨by simp [ht, fullCtl, hd], by simp, fun h0 => by simp [h0] at hc, fun _ => ⟨hd, hp⟩⟩
  case ret =>
    rcases h with ⟨rfl, -, -, h0, -, -, ht⟩ | ⟨rfl, -, -, h0, -, -, ht⟩ |
      ⟨-, hd, -, -, hc, -, -, ht, hp⟩ | ⟨-, hd, -, -, hc, -, -, ht, hp⟩ |
      ⟨-, hd, -, -, hc, -, -, ht, hp⟩
    · simp [ht, ctl, Event.isCopy, fullCtl, established, opening, h0]
    · simp [ht, ctl, Event.isCopy, fullCtl, established, opening, h0]
    · exact ⟨by simp [ht, fullCtl, hd], by simp, fun h0 => by simp [h0] at hc,
        fun _ => ⟨hd, hp⟩⟩
    · exact ⟨by simp [ht, fullCtl, hd], by simp, fun h0 => by simp [h0] at hc,
        fun _ => ⟨hd, hp⟩⟩
    · exact ⟨by simp [ht, fullCtl, hd], by simp, fun h0 => by simp [h0] at hc,
        fun _ => ⟨hd, hp⟩⟩
  case done =>
    rcases h with ⟨rfl, -, -, h0, -, -, ht⟩ | ⟨-, hd, -, -, hc, -, -, ht, hp⟩
    · simp [ht, ctl, Event.isCopy, fullCtl, established, opening, h0]
    · exact ⟨by simp [ht, fullCtl, hd], by simp [ht, fullCtl, hd],
        fun h0 => by simp [h0] at hc, fun _ => ⟨hd, hp⟩⟩

theorem ctl_established (c : Conn) : ctl (established c) = established c := by
  simp [ctl, opening, established, Event.isCopy]

theorem mem_ctl (tr : List Event) (e : Event) (h : e ∈ tr) (hc : e.isCopy = false) :
    e ∈ ctl tr := by
  simp [ctl, h, hc]

/-- The shape of every reachable trace: an initial segment of the control
sequence, or the established relay followed by reads, writes and closes. -/
theorem trace_shape (c : Conn) (dialed : Option Conn) (s : State) (h : PcInv c dialed s) :
    s.trace <+: fullCtl c dialed ∨
    ∃ tail, s.trace = established c ++ tail ∧
      ∀ e ∈ tail, e.isCopy = true ∨ ∃ d, e = Event.close d := by
  obtain ⟨h1, -, h3, h4⟩ := ctl_of_pcInv c dialed s h
  cases hc : s.c2b with
  | none => left; rw [← h3 hc]; exact h1
  | some st =>
    right
    obtain ⟨hd, tail, ht⟩ := h4 (by simp [hc])
    refine ⟨tail, ht.symm, ?_⟩
    intro e he
    cases hcopy : e.isCopy with
    | true => exact Or.inl rfl
    | false =>
      right
      rw [← ht, ctl_append, ctl_established] at h1
      simp only [fullCtl, hd, if_true] at h1
      have h5 := (List.prefix_append_right_inj _).1 h1
      have h6 := h5.subset (mem_ctl tail e he hcopy)
      simp only [List.mem_cons, List.mem_singleton] at h6
      rcases h6 with h6 | h6 | h6
      · exact ⟨_, h6⟩
      · exact ⟨_, h6⟩
      · simp at h6

theorem ordered_segment (l l' : List Event) (h : Ordered l) (hp : l' <+: l) : Ordered l' := by
  obtain ⟨t, rfl⟩ := hp
  intro pre e post heq
  exact h pre e (post ++ t) (by simp [heq])

theorem ordered_established (c : Conn) : Ordered (established c) := by
  intro pre e post heq
  rcases pre with _ | ⟨a0, _ | ⟨a1, _ | ⟨a2, _ | ⟨a3, _ | ⟨a4, _ | ⟨a5, pre⟩⟩⟩⟩⟩⟩ <;>
    simp [established, opening] at heq
  · obtain ⟨rfl, -⟩ := heq
    simp [Event.isDial, Event.isCopy]
  · obtain ⟨rfl, rfl, -⟩ := heq
    simp [Event.isDial, Event.isCopy]
  · obtain ⟨rfl, rfl, rfl, -⟩ := heq
    simp [Event.isDial, Event.isCopy]
  · obtain ⟨rfl, rfl, rfl, rfl, -⟩ := heq
    simp [Event.isDial, Event.isCopy]
  · obtain ⟨rfl, rfl, rfl, rfl, rfl, -⟩ := heq
    simp only [Event.isDial, Event.isCopy]
    refine ⟨by simp, by simp, fun _ => ⟨[Event.logNew c.remoteAddr, Event.sleep delay],
      [Event.logConnected c.remoteAddr], by simp, by simp⟩⟩

theorem ordered_failed (c : Conn) : Ordered (fullCtl c none) := by
  intro pre e post heq
  rcases pre with _ | ⟨a0, _ | ⟨a1, _ | ⟨a2, _ | ⟨a3, _ | ⟨a4, _ | ⟨a5, pre⟩⟩⟩⟩⟩⟩ <;>
    simp [fullCtl, opening] at heq
  · obtain ⟨rfl, -⟩ := heq
    simp [Event.isDial, Event.isCopy]
  · obtain ⟨rfl, rfl, -⟩ := heq
    simp [Event.isDial, Event.isCopy]
  · obtain ⟨rfl, rfl, rfl, -⟩ := heq
    simp [Event.isDial, Event.isCopy]
  · obtain ⟨rfl, rfl, rfl, rfl, -⟩ := heq
    simp [Event.isDial, Event.isCopy]
  · obtain ⟨rfl, rfl, rfl, rfl, rfl, -⟩ := heq
    simp [Event.isDial, Event.isCopy]

theorem ordered_tail (c : Conn) (tail : List Event)
    (h : ∀ e ∈ tail, e.isCopy = true ∨ ∃ d, e = Event.close d) :
    Ordered (established c ++ tail) := by
  have key : ∀ a' e post, tail = a' ++ e :: post →
      (∀ n, e = Event.sleep n → n = delay) ∧
      (e.isDial = true → Event.sleep delay ∈ established c ++ a') ∧
      (e.isCopy = true ∨ e = Event.go →
        ∃ p1 p2, established c ++ a' = p1 ++ Event.dial "tcp" "web:8080" true :: p2 ∧
          Event.sleep delay ∈ p1) := by
    intro a' e post ht
    have he : e ∈ tail := by simp [ht]
    refine ⟨?_, ?_, fun _ => ⟨[Event.logNew c.remoteAddr, Event.sleep delay],
      [Event.logConnected c.remoteAddr, Event.go] ++ a', by simp [established, opening],
      by simp⟩⟩
    · intro n hn
      subst hn
      rcases h _ he with h1 | ⟨d, h1⟩
      · simp [Event.isCopy] at h1
      · simp at h1
    · intro hd
      rcases h _ he with h1 | ⟨d, h1⟩
      · cases e <;> simp [Event.isCopy, Event.isDial] at h1 hd
      · subst h1; simp [Event.isDial] at hd
  intro pre e post heq
  rcases List.append_eq_append_iff.1 heq with ⟨a', h1, h2⟩ | ⟨c', h1, h2⟩
  · subst h1
    exact key a' e post h2
  · cases c' with
    | nil =>
      simp only [List.append_nil] at h1
      simp only [List.nil_append] at h2
      subst h1
      simpa using key [] e post h2.symm
    | cons x c'' =>
      simp only [List.cons_append, List.cons.injEq] at h2
      obtain ⟨rfl, -⟩ := h2
      exact ordered_established c pre e c'' h1

theorem ordered_of_pcInv (c : Conn) (dialed : Option Conn) (s : State)
    (h : PcInv c dialed s) : Ordered s.trace := by
  rcases trace_shape c dialed s h with hp | ⟨tail, ht, hall⟩
  · refine ordered_segment _ _ ?_ hp
    cases dialed with
    | none => exact ordered_failed c
    | some b =>
      simp only [fullCtl, Option.isSome_some, if_true]
      refine ordered_tail c _ ?_
      intro e he
      simp only [List.mem_cons, List.mem_singleton] at he
      rcases he with he | he | he
      · exact Or.inr ⟨_, he⟩
      · exact Or.inr ⟨_, he⟩
      · simp at he
  · rw [ht]
    exact ordered_tail c tail hall

/-- A task started on a nil connection panics at its first statement and does
nothing else. -/
theorem run_nil (dialed : Option Conn) (sched : List Tid) :
    run none dialed sched State.init = State.init ∨
    run none dialed sched State.init = State.init.nilDeref := by
  refine run_induction none dialed
    (fun s => s = State.init ∨ s = State.init.nilDeref) ?_ sched State.init (Or.inl rfl)
  intro t s s' h hs
  rcases h with rfl | rfl
  · cases t with
    | main =>
      simp [step, handlerStep, State.init] at hs
      right; rw [← hs]; rfl
    | copier => simp [step, copierStep, State.init] at hs
  · cases t with
    | main => simp [step, handlerStep, State.init, State.nilDeref] at hs
    | copier => simp [step, copierStep, State.init, State.nilDeref] at hs

theorem bytesRead_append (c : Side) (xs ys : List Event) :
    bytesRead c (xs ++ ys) = bytesRead c xs ++ bytesRead c ys := by
  induction xs with
  | nil => simp [bytesRead]
  | cons x xs ih => simp [bytesRead, ih]

theorem bytesWritten_append (c : Side) (xs ys : List Event) :
    bytesWritten c (xs ++ ys) = bytesWritten c xs ++ bytesWritten c ys := by
  induction xs with
  | nil => simp [bytesWritten]
  | cons x xs ih => simp [bytesWritten, ih]

theorem bytes_of_control (c : Side) (l : List Event) (h : ∀ e ∈ l, e.isCopy = false) :
    bytesRead c l = [] ∧ bytesWritten c l = [] := by
  induction l with
  | nil => simp [bytesRead, bytesWritten]
  | cons x xs ih =>
    have hx := h x (by simp)
    have := ih (fun e he => h e (by simp [he]))
    cases x <;> simp_all [bytesRead, bytesWritten, Event.readFrom, Event.writtenTo, Event.isCopy]

theorem delivered_succ (reads : List ReadRes) (k : Nat) (r : ReadRes)
    (h : reads[k]? = some r) : delivered reads (k + 1) = delivered reads k ++ r.data := by
  induction reads generalizing k with
  | nil => simp at h
  | cons x xs ih =>
    cases k with
    | zero =>
      simp at h
      simp [delivered, h]
    | succ k =>
      simp at h
      have := ih k h
      simp only [delivered] at this
      simp only [delivered, List.take_succ_cons, List.map_cons, List.flatten_cons]
      rw [this, List.append_assoc]

theorem clean_succ (reads : List ReadRes) (k : Nat) (r : ReadRes)
    (h : reads[k]? = some r) (hc : Clean reads k) (hr : r.err = RErr.none) :
    Clean reads (k + 1) := by
  intro x hx
  rw [List.take_succ, h] at hx
  simp only [Option.toList, List.mem_append, List.mem_singleton] at hx
  rcases hx with hx | hx
  · exact hc x hx
  · rw [hx]; exact hr

/-- Bytes delivered before the first error are an initial segment of the
stream. -/
theorem delivered_stream (reads : List ReadRes) (k : Nat) (hc : Clean reads (k - 1)) :
    delivered reads k <+: stream reads := by
  induction reads generalizing k with
  | nil => simp [delivered, stream]
  | cons x xs ih =>
    cases k with
    | zero => simp [delivered]
    | succ k =>
      cases k with
      | zero =>
        simp [delivered, stream]
      | succ k =>
        have hx : x.err = RErr.none := hc x (by simp)
        have hc' : Clean xs (k + 1 - 1) := by
          intro r hr
          exact hc r (by simp at hr ⊢; exact Or.inr hr)
        have := ih (k + 1) hc'
        simp only [delivered, stream, hx, if_true] at this ⊢
        simpa using this

/-- Once the read that carries the first error has been consumed, the bytes
delivered are the whole stream. -/
theorem delivered_all (reads : List ReadRes) (k : Nat) (r : ReadRes)
    (hc : Clean reads k) (h : reads[k]? = some r) (hr : r.err ≠ RErr.none) :
    delivered reads (k + 1) = stream reads := by
  induction reads generalizing k with
  | nil => simp at h
  | cons x xs ih =>
    cases k with
    | zero =>
      simp at h
      subst h
      simp [delivered, stream, hr]
    | succ k =>
      simp at h
      have hx : x.err = RErr.none := hc x (by simp)
      have hc' : Clean xs k := by
        intro r0 hr0
        exact hc r0 (by simp; exact Or.inr hr0)
      have := ih k hc' h
      simp only [delivered, stream, hx, if_true] at this ⊢
      simpa using this

/-- One action of `io.Copy` keeps `CopyInv`. -/
theorem copyInv_step (sd dd : Side) (sp dp : Conn) (src dst : ConnSt) (st st' : CopySt)
    (src' dst' : ConnSt) (e : Event) (R W : List Byte)
    (h : copyStep sd dd sp dp src dst st = some (st', src', dst', e))
    (hi : CopyInv sp.reads (some st) src.rd R W) :
    CopyInv sp.reads (some st') src'.rd (R ++ e.readFrom sd) (W ++ e.writtenTo dd) := by
  rcases copyStep_cases sd dd sp dp src dst st st' src' dst' e h with
    ⟨r, rfl, hr, -, rfl, rfl⟩ | ⟨buf, er, n, failed, rfl, hw, rfl, rfl, rfl⟩
  · obtain ⟨hR, hle, hcl, hW, hclean⟩ := hi
    simp only [Event.readFrom, Event.writtenTo, if_true, List.append_nil]
    rcases (readConn_some sp src src' r hr).2.2 with ⟨-, rfl, rfl⟩ | ⟨-, hget, hrd⟩
    · simp only [List.length_nil, Nat.lt_irrefl, if_false, afterChunk, List.append_nil]
      exact ⟨hR, hle, hcl, hW⟩
    · rw [hrd]
      have hlt : src.rd < sp.reads.length := by
        rcases List.getElem?_eq_some.1 hget with ⟨hlt, -⟩
        exact hlt
      have hR' : R ++ r.data = delivered sp.reads (src.rd + 1) := by
        rw [delivered_succ _ _ _ hget, hR]
      refine ⟨hR', hlt, by simpa using hclean, ?_⟩
      by_cases hpos : 0 < r.data.length
      · simp only [hpos, if_true]
        exact ⟨by rw [hW], Nat.succ_pos _, r, by simpa using hget, rfl, rfl⟩
      · have hnil : r.data = [] := by
          cases hd : r.data with
          | nil => rfl
          | cons x xs => simp [hd] at hpos
        simp only [hpos, if_false]
        cases her : r.err with
        | none =>
          simp only [afterChunk]
          exact ⟨by simp [hW, hnil], clean_succ _ _ _ hget hclean her⟩
        | eof =>
          simp only [afterChunk]
          exact ⟨by simp [hW, hnil], Nat.succ_pos _, r, by simpa using hget, her⟩
        | fail =>
          simp only [afterChunk]
          simp [hW, hnil]
  · obtain ⟨hR, hle, hcl, hRW, hpos, r, hr, her, -⟩ := hi
    obtain ⟨-, -, hn, hfull⟩ := writeConn_spec dp dst dst' buf n failed hw
    simp only [Event.readFrom, Event.writtenTo, if_true, List.append_nil]
    refine ⟨hR, hle, hcl, ?_⟩
    cases failed with
    | true =>
      simp only [if_true]
      rw [hRW]
      exact (List.prefix_append_right_inj W).2 (List.take_prefix n buf)
    | false =>
      have hn' : n = buf.length := hfull rfl
      have hW' : W ++ List.take n buf = R := by rw [hn', List.take_length, hRW]
      have hk : src'.rd - 1 + 1 = src'.rd := Nat.sub_add_cancel hpos
      simp only [Bool.false_eq_true, if_false]
      cases hee : er with
      | none =>
        simp only [afterChunk]
        refine ⟨hW', ?_⟩
        have := clean_succ _ _ _ hr hcl (her.trans hee)
        rwa [hk] at this
      | eof =>
        simp only [afterChunk]
        exact ⟨hW', hpos, r, hr, her.trans hee⟩
      | fail =>
        simp only [afterChunk]
        exact hW'

/-- The events of one copy neither read from its destination nor write to its
source. -/
theorem copyStep_foreign (sd dd : Side) (hne : sd ≠ dd) (sp dp : Conn) (src dst : ConnSt)
    (st st' : CopySt) (src' dst' : ConnSt) (e : Event)
    (h : copyStep sd dd sp dp src dst st = some (st', src', dst', e)) :
    e.readFrom dd = [] ∧ e.writtenTo sd = [] := by
  rcases copyStep_cases sd dd sp dp src dst st st' src' dst' e h with
    ⟨r, -, -, -, rfl, -⟩ | ⟨buf, er, n, failed, -, -, -, rfl, -⟩
  · simp [Event.readFrom, Event.writtenTo, hne]
  · simp [Event.readFrom, Event.writtenTo, hne.symm]

/-- The three kinds of step of the handler: a control step (which touches
neither copy), the `go` statement, and one action of `io.Copy(conn, backend)`. -/
theorem handlerStep_cases (c : Conn) (dialed : Option Conn) (s s' : State)
    (hs : handlerStep (some c) dialed s = some s') :
    (s'.b2c = s.b2c ∧ s'.c2b = s.c2b ∧ s'.client.rd = s.client.rd ∧
      s'.backend.rd = s.backend.rd ∧
      ∃ l, s'.trace = s.trace ++ l ∧ ∀ e ∈ l, e.isCopy = false) ∨
    (s.pc = MainPc.go ∧ s'.c2b = some CopySt.rd ∧ s'.b2c = some CopySt.rd ∧
      s'.client.rd = s.client.rd ∧ s'.backend.rd = s.backend.rd ∧
      s'.trace = s.trace ++ [Event.go]) ∨
    (∃ b st st' src' dst' e, s.pc = MainPc.copy ∧ dialed = some b ∧ s.b2c = some st ∧
      copyStep Side.backend Side.client b c s.backend s.client st = some (st', src', dst', e) ∧
      s' = { s with b2c := some st', backend := src', client := dst',
                    trace := s.trace ++ [e] }) := by
  obtain ⟨pc, defers, b2c, c2b, client, backend, trace⟩ := s
  cases pc <;> simp only [handlerStep] at hs
  case deferConn =>
    simp only [Option.some.injEq] at hs; subst hs
    exact Or.inl ⟨rfl, rfl, rfl, rfl, [], by simp, by simp⟩
  case logNew =>
    simp only [Option.some.injEq] at hs; subst hs
    exact Or.inl ⟨rfl, rfl, rfl, rfl, [_], rfl, by simp [Event.isCopy]⟩
  case sleep =>
    simp only [Option.some.injEq] at hs; subst hs
    exact Or.inl ⟨rfl, rfl, rfl, rfl, [_], rfl, by simp [Event.isCopy]⟩
  case dial =>
    simp only [Option.some.injEq] at hs; subst hs
    exact Or.inl ⟨rfl, rfl, rfl, rfl, [_], rfl, by simp [Event.isCopy]⟩
  case logFailed =>
    simp only [Option.some.injEq] at hs; subst hs
    exact Or.inl ⟨rfl, rfl, rfl, rfl, [_], rfl, by simp [Event.isCopy]⟩
  case deferBackend =>
    simp only [Option.some.injEq] at hs; subst hs
    exact Or.inl ⟨rfl, rfl, rfl, rfl, [], by simp, by simp⟩
  case logConnected =>
    simp only [Option.some.injEq] at hs; subst hs
    exact Or.inl ⟨rfl, rfl, rfl, rfl, [_], rfl, by simp [Event.isCopy]⟩
  case go =>
    simp only [Option.some.injEq] at hs; subst hs
    exact Or.inr (Or.inl ⟨rfl, rfl, rfl, rfl, rfl, rfl⟩)
  case copy =>
    cases dialed with
    | none => simp at hs
    | some b =>
      cases b2c with
      | none => simp at hs
      | some st =>
        cases st with
        | fin r =>
          simp only [Option.some.injEq] at hs; subst hs
          exact Or.inl ⟨rfl, rfl, rfl, rfl, [], by simp, by simp⟩
        | rd =>
          simp only at hs
          cases hq : copyStep Side.backend Side.client b c backend client CopySt.rd with
          | none => simp [hq] at hs
          | some q =>
            obtain ⟨st', src', dst', e⟩ := q
            simp only [hq, Option.some.injEq] at hs
            exact Or.inr (Or.inr ⟨b, _, st', src', dst', e, rfl, rfl, rfl, hq, hs.symm⟩)
        | wr buf er =>
          simp only at hs
          cases hq : copyStep Side.backend Side.client b c backend client (CopySt.wr buf er) with
          | none => simp [hq] at hs
          | some q =>
            obtain ⟨st', src', dst', e⟩ := q
            simp only [hq, Option.some.injEq] at hs
            exact Or.inr (Or.inr ⟨b, _, st', src', dst', e, rfl, rfl, rfl, hq, hs.symm⟩)
  case ret =>
    cases defers with
    | nil =>
      simp only [Option.some.injEq] at hs; subst hs
      exact Or.inl ⟨rfl, rfl, rfl, rfl, [], by simp, by simp⟩
    | cons d ds =>
      simp only [Option.some.injEq] at hs; subst hs
      cases d
      · exact Or.inl ⟨rfl, rfl, rfl, rfl, [_], rfl, by simp [Event.isCopy]⟩
      · exact Or.inl ⟨rfl, rfl, rfl, rfl, [_], rfl, by simp [Event.isCopy]⟩
  case done => simp at hs
  case panicked => simp at hs

theorem dataInv_step (c b : Conn) (t : Tid) (s s' : State)
    (hp : PcInv c (some b) s) (h : DataInv c b s)
    (hs : step (some c) (some b) t s = some s') : DataInv c b s' := by
  obtain ⟨h1, h2⟩ := h
  cases t with
  | main =>
    rcases handlerStep_cases c (some b) s s' hs with
      ⟨e1, e2, e3, e4, l, hl, hall⟩ | ⟨hpc, e1, e2, e3, e4, hl⟩ |
      ⟨b', st, st', src', dst', e, hpc, hb, hst, hq, rfl⟩
    · obtain ⟨r1, w1⟩ := bytes_of_control Side.client l hall
      obtain ⟨r2, w2⟩ := bytes_of_control Side.backend l hall
      unfold DataInv
      rw [e1, e2, e3, e4, hl]
      simp only [bytesRead_append, bytesWritten_append, r1, r2, w1, w2, List.append_nil]
      exact ⟨h1, h2⟩
    · unfold PcInv at hp
      simp only [hpc] at hp
      obtain ⟨-, -, hb0, hc0, -, -, -⟩ := hp
      rw [hc0] at h1
      rw [hb0] at h2
      obtain ⟨a1, a2, a3, a4, a5⟩ := h1
      obtain ⟨b1, b2, b3, b4, b5⟩ := h2
      unfold DataInv
      rw [e1, e2, e3, e4, hl]
      simp only [bytesRead_append, bytesWritten_append, bytesRead, bytesWritten,
        Event.readFrom, Event.writtenTo, List.append_nil]
      refine ⟨⟨a1, a2, a3, ?_, ?_⟩, ⟨b1, b2, b3, ?_, ?_⟩⟩
      · rw [a5, a1, a4]; simp [delivered]
      · rw [a4]; intro r hr; simp at hr
      · rw [b5, b1, b4]; simp [delivered]
      · rw [b4]; intro r hr; simp at hr
    · simp only [Option.some.injEq] at hb
      subst hb
      rw [hst] at h2
      have k2 := copyInv_step _ _ _ _ _ _ _ _ _ _ _ _ _ hq h2
      obtain ⟨f1, f2⟩ := copyStep_foreign _ _ (by decide) _ _ _ _ _ _ _ _ _ hq
      obtain ⟨-, -, -, -, g5⟩ := copyStep_event _ _ _ _ _ _ _ _ _ _ _ hq
      unfold DataInv
      simp only [bytesRead_append, bytesWritten_append, bytesRead, bytesWritten,
        List.append_nil, f1, f2, g5]
      exact ⟨h1, k2⟩
  | copier =>
    obtain ⟨c0, b0, st, st', src', dst', e, hc, hb, hst, hq, rfl⟩ :=
      copierStep_spec _ _ _ _ hs
    simp only [Option.some.injEq] at hc hb
    subst hc hb
    rw [hst] at h1
    have k1 := copyInv_step _ _ _ _ _ _ _ _ _ _ _ _ _ hq h1
    obtain ⟨f1, f2⟩ := copyStep_foreign _ _ (by decide) _ _ _ _ _ _ _ _ _ hq
    obtain ⟨-, -, -, -, g5⟩ := copyStep_event _ _ _ _ _ _ _ _ _ _ _ hq
    unfold DataInv
    simp only [bytesRead_append, bytesWritten_append, bytesRead, bytesWritten,
      List.append_nil, f1, f2, g5]
    exact ⟨k1, h2⟩

theorem dataInv_init (c b : Conn) : DataInv c b State.init := by
  simp [DataInv, CopyInv, State.init, ConnSt.fresh, bytesRead, bytesWritten, delivered, Clean]

/-- Control and data invariants hold in every state a schedule reaches. -/
theorem inv_run (c b : Conn) (sched : List Tid) :
    PcInv c (some b) (run (some c) (some b) sched State.init) ∧
    DataInv c b (run (some c) (some b) sched State.init) :=
  run_induction (some c) (some b) (fun s => PcInv c (some b) s ∧ DataInv c b s)
    (fun t s s' h hs => ⟨pcInv_step c (some b) t s s' h.1 hs, dataInv_step c b t s s' h.1 h.2 hs⟩)
    sched State.init ⟨pcInv_init c (some b), dataInv_init c b⟩

/-- Counting argument: when the handler can always move while `rank` is
positive, each of its steps lowers `rank` by one and the goroutine leaves it
alone, `rank` after a schedule is the initial rank less the number of picks of
the handler. -/
theorem run_rank (conn dialed : Option Conn) (P : State → Prop) (rank : State → Nat)
    (hP : ∀ t s s', P s → step conn dialed t s = some s' → P s')
    (hen : ∀ s, P s → 0 < rank s → step conn dialed Tid.main s ≠ none)
    (hmain : ∀ s s', P s → step conn dialed Tid.main s = some s' → rank s' = rank s - 1)
    (hcop : ∀ s s', P s → step conn dialed Tid.copier s = some s' → rank s' = rank s)
    (sched : List Tid) (s : State) (h : P s) :
    rank (run conn dialed sched s) = rank s - sched.count Tid.main := by
  induction sched generalizing s with
  | nil => simp [run]
  | cons t ts ih =>
    cases t with
    | main =>
      simp only [run, List.count_cons_self]
      cases hs : step conn dialed Tid.main s with
      | none =>
        have h0 : rank s = 0 := by
          rcases Nat.eq_zero_or_pos (rank s) with h0 | h0
          · exact h0
          · exact absurd hs (hen s h h0)
        simp only [ih s h, h0, Nat.zero_sub]
      | some s' =>
        simp only [ih s' (hP _ _ _ h hs), hmain s s' h hs]
        omega
    | copier =>
      have hne : (Tid.copier == Tid.main) = false := by decide
      simp only [run, List.count_cons, hne]
      cases hs : step conn dialed Tid.copier s with
      | none => simpa using ih s h
      | some s' => simpa [hcop s s' h hs] using ih s' (hP _ _ _ h hs)

theorem copierStep_frame (conn dialed : Option Conn) (s s' : State)
    (h : copierStep conn dialed s = some s') :
    s'.pc = s.pc ∧ s'.defers = s.defers ∧ s'.b2c = s.b2c ∧
    s'.client.closed = s.client.closed ∧ s'.backend.closed = s.backend.closed ∧
    s'.backend.rd = s.backend.rd ∧ s.trace <+: s'.trace := by
  obtain ⟨c0, b, st, st', src', dst', e, -, -, h3, h4, rfl⟩ := copierStep_spec _ _ _ _ h
  obtain ⟨-, e2, e3, -, e5⟩ := copyStep_event _ _ _ _ _ _ _ _ _ _ _ h4
  exact ⟨rfl, rfl, rfl, e2, e3, e5, List.prefix_append _ _⟩

theorem opening_progress (c : Conn) (dialed : Option Conn) (sched : List Tid) :
    rankOpen (run (some c) dialed sched State.init).pc = 4 - sched.count Tid.main := by
  have := run_rank (some c) dialed (fun _ => True) (fun s => rankOpen s.pc)
    (fun _ _ _ _ _ => trivial) ?_ ?_ ?_ sched State.init trivial
  · simpa [State.init, rankOpen] using this
  · intro s _ hr
    obtain ⟨pc, defers, b2c, c2b, client, backend, trace⟩ := s
    cases pc <;> simp [rankOpen, step, handlerStep] at hr ⊢
  · intro s s' _ hs
    obtain ⟨pc, defers, b2c, c2b, client, backend, trace⟩ := s
    rcases handlerStep_cases c dialed _ s' hs with
      ⟨-, -, -, -, -⟩ | ⟨hpc, -⟩ | ⟨b, st, st', src', dst', e, hpc, -, -, -, rfl⟩
    · cases pc <;> simp only [step, handlerStep] at hs
      case copy =>
        cases dialed with
        | none => simp at hs
        | some b =>
          cases b2c with
          | none => simp at hs
          | some st =>
            cases st with
            | fin r => simp at hs; subst hs; rfl
            | rd =>
              simp only at hs
              split at hs
              · simp at hs
              · simp at hs; subst hs; rfl
            | wr buf er =>
              simp only at hs
              split at hs
              · simp at hs
              · simp at hs; subst hs; rfl
      case ret =>
        cases defers with
        | nil => simp at hs; subst hs; rfl
        | cons d ds => simp at hs; subst hs; cases d <;> rfl
      case dial =>
        simp at hs; subst hs
        cases dialed <;> rfl
      all_goals (simp at hs <;> (subst hs; rfl))
    · simp only at hpc
      subst hpc
      simp only [step, handlerStep, Option.some.injEq] at hs
      subst hs; rfl
    · simp only at hpc
      subst hpc
      rfl
  · intro s s' _ hs
    simp only [step] at hs
    show rankOpen s'.pc = rankOpen s.pc
    rw [(copierStep_frame _ _ _ _ hs).1]

theorem b2cEnded_step (c : Conn) (dialed : Option Conn) (t : Tid) (s s' : State)
    (hp : PcInv c dialed s) (he : B2cEnded s) (hs : step (some c) dialed t s = some s') :
    B2cEnded s' := by
  obtain ⟨r, hr⟩ := he
  cases t with
  | main =>
    rcases handlerStep_cases c dialed s s' hs with
      ⟨e1, -⟩ | ⟨hpc, -⟩ | ⟨b, st, st', src', dst', e, -, -, hst, hq, -⟩
    · exact ⟨r, e1.trans hr⟩
    · unfold PcInv at hp
      simp only [hpc] at hp
      obtain ⟨-, -, hb0, -⟩ := hp
      simp [hb0] at hr
    · rw [hr] at hst
      simp only [Option.some.injEq] at hst
      subst hst
      simp [copyStep] at hq
  | copier => exact ⟨r, (copierStep_frame _ _ _ _ hs).2.2.1.trans hr⟩

theorem failure_progress (c : Conn) (sched : List Tid) :
    rankFail (run (some c) none sched State.init) = 7 - sched.count Tid.main := by
  have := run_rank (some c) none (PcInv c none) rankFail
    (fun t s s' => pcInv_step c none t s s') ?_ ?_ ?_ sched State.init (pcInv_init c none)
  · simpa [State.init, rankFail] using this
  · intro s _ hr
    obtain ⟨pc, defers, b2c, c2b, client, backend, trace⟩ := s
    cases pc <;> simp [rankFail, step, handlerStep] at hr ⊢
    cases defers <;> simp
  · intro s s' hp hs
    obtain ⟨pc, defers, b2c, c2b, client, backend, trace⟩ := s
    cases pc <;> simp only [PcInv, Early, Late] at hp <;> simp only [step, handlerStep] at hs
    case logFailed =>
      obtain ⟨-, hd, -⟩ := hp
      simp at hs; subst hs
      simp [rankFail, State.emit, hd]
    case ret =>
      cases defers with
      | nil => simp at hs; subst hs; rfl
      | cons d ds =>
        simp at hs; subst hs
        cases d <;> simp [rankFail, State.closeSide] <;> omega
    case deferBackend => simp at hp
    case logConnected => simp at hp
    case go => simp at hp
    case copy => simp at hp
    all_goals (simp at hs <;> (subst hs; rfl))
  · intro s s' _ hs
    simp only [step] at hs
    obtain ⟨h1, h2, -⟩ := copierStep_frame _ _ _ _ hs
    simp only [rankFail, h1, h2]

theorem ending_progress (c : Conn) (dialed : Option Conn) (more : List Tid) (s : State)
    (hp : PcInv c dialed s) (he : B2cEnded s) :
    rankEnd (run (some c) dialed more s) = rankEnd s - more.count Tid.main ∧
    PcInv c dialed (run (some c) dialed more s) ∧ B2cEnded (run (some c) dialed more s) := by
  have hinv : ∀ t s s', (PcInv c dialed s ∧ B2cEnded s) → step (some c) dialed t s = some s' →
      (PcInv c dialed s' ∧ B2cEnded s') := fun t s s' h hs =>
    ⟨pcInv_step c dialed t s s' h.1 hs, b2cEnded_step c dialed t s s' h.1 h.2 hs⟩
  refine ⟨?_, run_induction (some c) dialed (fun s => PcInv c dialed s ∧ B2cEnded s) hinv
    more s ⟨hp, he⟩⟩
  refine run_rank (some c) dialed (fun s => PcInv c dialed s ∧ B2cEnded s) rankEnd hinv
    ?_ ?_ ?_ more s ⟨hp, he⟩
  · intro s ⟨hp, r, hr⟩ hk
    obtain ⟨pc, defers, b2c, c2b, client, backend, trace⟩ := s
    simp only at hr
    subst hr
    cases pc <;> simp only [PcInv, Early, Late] at hp <;>
      simp [rankEnd, step, handlerStep] at hk ⊢
    · obtain ⟨hd, -⟩ := hp
      cases dialed with
      | none => simp at hd
      | some b => simp
    · cases defers <;> simp
  · intro s s' ⟨hp, r, hr⟩ hs
    obtain ⟨pc, defers, b2c, c2b, client, backend, trace⟩ := s
    simp only at hr
    subst hr
    cases pc <;> simp only [PcInv, Early, Late] at hp <;> simp only [step, handlerStep] at hs
    case copy =>
      obtain ⟨hd, hdef, -⟩ := hp
      cases dialed with
      | none => simp at hd
      | some b =>
        simp at hs; subst hs
        simp [rankEnd, hdef]
    case ret =>
      cases defers with
      | nil => simp at hs; subst hs; rfl
      | cons d ds =>
        simp at hs; subst hs
        cases d <;> simp [rankEnd, State.closeSide] <;> omega
    case done => simp at hs
    all_goals simp at hp
  · intro s s' _ hs
    simp only [step] at hs
    obtain ⟨h1, h2, -⟩ := copierStep_frame _ _ _ _ hs
    simp only [rankEnd, h1, h2]

theorem writeConn_failed (dp : Conn) (dst dst' : ConnSt) (buf : List Byte) (n : Nat)
    (h : writeConn dp dst buf = (n, true, dst')) :
    dst'.closed = true ∨ ∃ i m, i < dst'.wr ∧ dp.writes[i]? = some (WriteRes.fail m) := by
  unfold writeConn at h
  by_cases hc : dst.closed = true
  · simp [hc] at h
    left; rw [← h.2]; exact hc
  · simp only [hc, Bool.false_eq_true, if_false] at h
    cases hw : dp.writes.getD dst.wr WriteRes.ok with
    | ok =>
      simp only [hw, Prod.mk.injEq] at h
      exact absurd h.2.1 (by decide)
    | fail k =>
      simp only [hw, Prod.mk.injEq] at h
      obtain ⟨-, -, h3⟩ := h
      right
      refine ⟨dst.wr, k, by rw [← h3]; exact Nat.lt_succ_self _, ?_⟩
      rw [List.getD_eq_getElem?_getD] at hw
      cases hg : dp.writes[dst.wr]? with
      | none => simp [hg] at hw
      | some x =>
        simp only [hg, Option.getD_some] at hw
        rw [hw]

theorem writeConn_wr (dp : Conn) (dst dst' : ConnSt) (buf : List Byte) (n : Nat)
    (failed : Bool) (h : writeConn dp dst buf = (n, failed, dst')) : dst.wr ≤ dst'.wr := by
  unfold writeConn at h
  by_cases hc : dst.closed = true
  · simp [hc] at h
    rw [← h.2.2]
  · simp only [hc, Bool.false_eq_true, if_false] at h
    cases hw : dp.writes.getD dst.wr WriteRes.ok <;>
      (simp only [hw, Prod.mk.injEq] at h; rw [← h.2.2]; exact Nat.le_succ _)

/-- One action of `io.Copy` keeps `EndCause`. -/
theorem endCause_step (sd dd : Side) (sp dp : Conn) (src dst : ConnSt) (st st' : CopySt)
    (src' dst' : ConnSt) (e : Event)
    (h : copyStep sd dd sp dp src dst st = some (st', src', dst', e))
    (hi : EndCause sp dp (some st) src dst) : EndCause sp dp (some st') src' dst' := by
  rcases copyStep_cases sd dd sp dp src dst st st' src' dst' e h with
    ⟨r, rfl, hr, rfl, -, rfl⟩ | ⟨buf, er, n, failed, rfl, hw, rfl, -, rfl⟩
  · rcases (readConn_some sp src src' r hr).2.2 with ⟨hc, rfl, rfl⟩ | ⟨-, hget, hrd⟩
    · simp only [List.length_nil, Nat.lt_irrefl, if_false, afterChunk]
      exact ⟨fun _ => Or.inl hc, by simp, by simp⟩
    · have hlast : sp.reads[src'.rd - 1]? = some r := by rw [hrd]; simpa using hget
      have hpos : 0 < src'.rd := by rw [hrd]; exact Nat.succ_pos _
      by_cases hlen : 0 < r.data.length
      · simp only [hlen, if_true]
        refine ⟨by simp, by simp, ?_⟩
        intro buf er heq
        simp only [Option.some.injEq, CopySt.wr.injEq] at heq
        exact ⟨hpos, r, hlast, heq.2⟩
      · simp only [hlen, if_false]
        cases her : r.err <;> simp only [afterChunk]
        · exact ⟨by simp, by simp, by simp⟩
        · exact ⟨by simp, by simp, by simp⟩
        · exact ⟨fun _ => Or.inr ⟨hpos, r, hlast, her⟩, by simp, by simp⟩
  · obtain ⟨-, -, h3⟩ := hi
    obtain ⟨hpos, r, hr, her⟩ := h3 buf er rfl
    cases failed with
    | true =>
      simp only [if_true]
      exact ⟨by simp, fun _ => writeConn_failed dp dst dst' buf n hw, by simp⟩
    | false =>
      simp only [Bool.false_eq_true, if_false]
      cases hee : er <;> simp only [afterChunk]
      · exact ⟨by simp, by simp, by simp⟩
      · exact ⟨by simp, by simp, by simp⟩
      · exact ⟨fun _ => Or.inr ⟨hpos, r, hr, her.trans hee⟩, by simp, by simp⟩

/-- `EndCause` survives changes that leave the copy, the reads of its source
and the writes of its destination alone and close no handle open. -/
theorem endCause_frame (sp dp : Conn) (st : Option CopySt) (src dst src' dst' : ConnSt)
    (h : EndCause sp dp st src dst) (hrd : src'.rd = src.rd) (hwr : dst.wr ≤ dst'.wr)
    (hsc : src.closed = true → src'.closed = true)
    (hdc : dst.closed = true → dst'.closed = true) : EndCause sp dp st src' dst' := by
  obtain ⟨h1, h2, h3⟩ := h
  refine ⟨?_, ?_, ?_⟩
  · intro hst
    rcases h1 hst with hc | hc
    · exact Or.inl (hsc hc)
    · rw [hrd]; exact Or.inr hc
  · intro hst
    rcases h2 hst with hc | ⟨i, n, hi, hn⟩
    · exact Or.inl (hdc hc)
    · exact Or.inr ⟨i, n, Nat.lt_of_lt_of_le hi hwr, hn⟩
  · intro buf er hst
    rw [hrd]
    exact h3 buf er hst

/-- What a handler step outside `io.Copy` leaves alone. -/
theorem handlerStep_frame (c : Conn) (dialed : Option Conn) (s s' : State)
    (hs : handlerStep (some c) dialed s = some s')
    (hnc : s.pc ≠ MainPc.copy ∨ ∃ r, s.b2c = some (CopySt.fin r)) :
    ((s'.b2c = s.b2c ∧ s'.c2b = s.c2b) ∨
      (s'.c2b = some CopySt.rd ∧ s'.b2c = some CopySt.rd)) ∧
    s'.client.rd = s.client.rd ∧ s'.client.wr = s.client.wr ∧
    s'.backend.rd = s.backend.rd ∧ s'.backend.wr = s.backend.wr ∧
    (s.client.closed = true → s'.client.closed = true) ∧
    (s.backend.closed = true → s'.backend.closed = true) := by
  obtain ⟨pc, defers, b2c, c2b, client, backend, trace⟩ := s
  cases pc <;> simp only [handlerStep] at hs
  case copy =>
    rcases hnc with hnc | ⟨r, hr⟩
    · simp at hnc
    · simp only at hr
      subst hr
      cases dialed with
      | none => simp at hs
      | some b =>
        simp at hs; subst hs
        exact ⟨Or.inl ⟨rfl, rfl⟩, rfl, rfl, rfl, rfl, id, id⟩
  case ret =>
    cases defers with
    | nil =>
      simp at hs; subst hs
      exact ⟨Or.inl ⟨rfl, rfl⟩, rfl, rfl, rfl, rfl, id, id⟩
    | cons d ds =>
      simp at hs; subst hs
      cases d
      · exact ⟨Or.inl ⟨rfl, rfl⟩, rfl, rfl, rfl, rfl, fun _ => rfl, id⟩
      · exact ⟨Or.inl ⟨rfl, rfl⟩, rfl, rfl, rfl, rfl, id, fun _ => rfl⟩
  case go =>
    simp at hs; subst hs
    exact ⟨Or.inr ⟨rfl, rfl⟩, rfl, rfl, rfl, rfl, id, id⟩
  case done => simp at hs
  case panicked => simp at hs
  all_goals
    simp at hs; subst hs
    exact ⟨Or.inl ⟨rfl, rfl⟩, rfl, rfl, rfl, rfl, id, id⟩

theorem endCause_fresh (sp dp : Conn) (src dst : ConnSt) :
    EndCause sp dp (some CopySt.rd) src dst ∧ EndCause sp dp none src dst := by
  constructor <;> exact ⟨by simp, by simp, by simp⟩

/-- A handler step inside `io.Copy(conn, backend)` is one action of that
copy. -/
theorem handlerStep_copy (c b : Conn) (s s' : State) (st : CopySt)
    (hpc : s.pc = MainPc.copy) (hst : s.b2c = some st) (hnf : ∀ r, st ≠ CopySt.fin r)
    (hs : handlerStep (some c) (some b) s = some s') :
    ∃ st' src' dst' e,
      copyStep Side.backend Side.client b c s.backend s.client st = some (st', src', dst', e) ∧
      s' = { s with b2c := some st', backend := src', client := dst',
                    trace := s.trace ++ [e] } := by
  obtain ⟨pc, defers, b2c, c2b, client, backend, trace⟩ := s
  simp only at hpc hst
  subst hpc hst
  simp only [handlerStep] at hs
  cases st with
  | fin r => exact absurd rfl (hnf r)
  | rd =>
    cases hq : copyStep Side.backend Side.client b c backend client CopySt.rd with
    | none => simp [hq] at hs
    | some q =>
      obtain ⟨st', src', dst', e⟩ := q
      simp only [hq, Option.some.injEq] at hs
      exact ⟨st', src', dst', e, rfl, hs.symm⟩
  | wr buf er =>
    cases hq : copyStep Side.backend Side.client b c backend client (CopySt.wr buf er) with
    | none => simp [hq] at hs
    | some q =>
      obtain ⟨st', src', dst', e⟩ := q
      simp only [hq, Option.some.injEq] at hs
      exact ⟨st', src', dst', e, rfl, hs.symm⟩

theorem endInv_step (c b : Conn) (t : Tid) (s s' : State) (h : EndInv c b s)
    (hs : step (some c) (some b) t s = some s') : EndInv c b s' := by
  obtain ⟨h1, h2⟩ := h
  cases t with
  | main =>
    simp only [step] at hs
    have hctl : (s.pc ≠ MainPc.copy ∨ ∃ r, s.b2c = some (CopySt.fin r)) → EndInv c b s' := by
      intro hnc
      obtain ⟨hcp, f1, f2, f3, f4, f5, f6⟩ := handlerStep_frame c (some b) s s' hs hnc
      rcases hcp with ⟨e1, e2⟩ | ⟨e1, e2⟩
      · unfold EndInv
        rw [e1, e2]
        exact ⟨endCause_frame c b _ _ _ _ _ h1 f1 (le_of_eq f4.symm) f5 f6,
          endCause_frame b c _ _ _ _ _ h2 f3 (le_of_eq f2.symm) f6 f5⟩
      · unfold EndInv
        rw [e1, e2]
        exact ⟨(endCause_fresh c b _ _).1, (endCause_fresh b c _ _).1⟩
    by_cases hpc : s.pc = MainPc.copy
    · cases hst : s.b2c with
      | none =>
        obtain ⟨pc, defers, b2c, c2b, client, backend, trace⟩ := s
        simp only at hpc hst
        subst hpc hst
        simp [handlerStep] at hs
      | some st =>
        by_cases hnf : ∀ r, st ≠ CopySt.fin r
        · obtain ⟨st', src', dst', e, hq, rfl⟩ := handlerStep_copy c b s s' st hpc hst hnf hs
          rw [hst] at h2
          have k2 := endCause_step _ _ _ _ _ _ _ _ _ _ _ hq h2
          obtain ⟨-, g2, g3, g4, g5⟩ := copyStep_event _ _ _ _ _ _ _ _ _ _ _ hq
          exact ⟨endCause_frame c b _ _ _ _ _ h1 g5 (le_of_eq g4.symm)
            (fun hc => by rw [g3]; exact hc) (fun hc => by rw [g2]; exact hc), k2⟩
        · have : ∃ r, st = CopySt.fin r := by
            by_contra hne
            exact hnf (fun r hr => hne ⟨r, hr⟩)
          obtain ⟨r, rfl⟩ := this
          exact hctl (Or.inr ⟨r, hst⟩)
    · exact hctl (Or.inl hpc)
  | copier =>
    obtain ⟨c0, b0, st, st', src', dst', e, hc, hb, hst, hq, rfl⟩ :=
      copierStep_spec _ _ _ _ hs
    simp only [Option.some.injEq] at hc hb
    subst hc hb
    rw [hst] at h1
    have k1 := endCause_step _ _ _ _ _ _ _ _ _ _ _ hq h1
    obtain ⟨-, g2, g3, g4, g5⟩ := copyStep_event _ _ _ _ _ _ _ _ _ _ _ hq
    exact ⟨k1, endCause_frame b c _ _ _ _ _ h2 g5 (le_of_eq g4.symm)
      (fun hc => by rw [g3]; exact hc) (fun hc => by rw [g2]; exact hc)⟩

theorem endInv_run (c b : Conn) (sched : List Tid) :
    EndInv c b (run (some c) (some b) sched State.init) :=
  run_induction (some c) (some b) (EndInv c b) (fun t s s' => endInv_step c b t s s')
    sched State.init ⟨(endCause_fresh c b _ _).2, (endCause_fresh b c _ _).2⟩

theorem faithful_of_copyInv (reads : List ReadRes) (st : Option CopySt) (rd : Nat)
    (R W : List Byte) (h : CopyInv reads st rd R W) : Faithful reads st rd R W := by
  obtain ⟨hR, -, hcl, hst⟩ := h
  have hS : R <+: stream reads := by rw [hR]; exact delivered_stream reads rd hcl
  cases st with
  | none =>
    obtain ⟨-, hW⟩ := hst
    refine ⟨by simp [hW], hR, hS, ?_, ?_, ?_, ?_⟩ <;> simp
  | some st =>
    cases st with
    | rd =>
      obtain ⟨hW, hc⟩ := hst
      refine ⟨by rw [hW], hR, hS, ?_, fun _ => ⟨hW, hc⟩, ?_, ?_⟩ <;> simp
    | wr buf er =>
      obtain ⟨hW, hpos, r, hr, her, hdata⟩ := hst
      refine ⟨by rw [hW]; exact List.prefix_append _ _, hR, hS, ?_, ?_, ?_, ?_⟩
      · intro b e heq
        simp only [Option.some.injEq, CopySt.wr.injEq] at heq
        obtain ⟨rfl, rfl⟩ := heq
        refine ⟨hW, hpos, ?_⟩
        rw [hr, ← her, ← hdata]
      all_goals simp
    | fin r =>
      cases r with
      | ok =>
        obtain ⟨hW, hpos, r, hr, her⟩ := hst
        have hall := delivered_all reads (rd - 1) r hcl hr (by rw [her]; simp)
        rw [Nat.sub_add_cancel hpos] at hall
        refine ⟨by rw [hW], hR, hS, by simp, by simp, fun _ _ _ => hW,
          fun _ => ⟨?_, hpos, r, hr, her⟩⟩
        rw [hW, hR, hall]
      | readErr =>
        refine ⟨by rw [show W = R from hst], hR, hS, by simp, by simp, fun _ _ _ => hst, by simp⟩
      | writeErr =>
        refine ⟨hst, hR, hS, by simp, by simp, ?_, by simp⟩
        intro r hr hne
        simp only [Option.some.injEq, CopySt.fin.injEq] at hr
        exact absurd hr.symm hne

/-- A call of `io.Copy` that holds a chunk can write it, and one that is about
to read can read when the source handle has been closed or a result is
waiting. -/
theorem copyStep_enabled (sd dd : Side) (sp dp : Conn) (src dst : ConnSt) (st : CopySt)
    (h : (∃ buf er, st = CopySt.wr buf er) ∨
      (st = CopySt.rd ∧ (src.closed = true ∨ src.rd < sp.reads.length))) :
    copyStep sd dd sp dp src dst st ≠ none := by
  rcases h with ⟨buf, er, rfl⟩ | ⟨rfl, h⟩
  · simp [copyStep]
  · simp only [copyStep, readConn]
    rcases h with h | h
    · simp [h]
    · by_cases hc : src.closed = true
      · simp [hc]
      · have : sp.reads[src.rd]? = some sp.reads[src.rd] := List.getElem?_eq_getElem h
        simp [hc, this]

/-- C1 fails as stated.  The client sends PING, the backend closes at once.
The goroutine reads PING; before it writes, the handler meets the backend's
end-of-stream, returns and closes both handles; the goroutine's write then
fails on the closed backend handle.  The task has read PING from the client
and written nothing to the backend: the four bytes are dropped. -/
theorem late_write_counterexample :
    lateWriteRun.pc = MainPc.done ∧
    lateWriteRun.c2b = some (CopySt.fin CopyRes.writeErr) ∧
    bytesRead Side.client lateWriteRun.trace = ping ∧
    bytesWritten Side.backend lateWriteRun.trace = [] ∧
    lateWriteRun.trace =
      [Event.logNew "10.0.0.7:5000", Event.sleep delay, Event.dial "tcp" "web:8080" true,
       Event.logConnected "10.0.0.7:5000", Event.go,
       Event.read Side.client ping RErr.none,
       Event.read Side.backend [] RErr.eof,
       Event.close Side.backend, Event.close Side.client,
       Event.write Side.backend ping 0 true] := by
  decide

/-- C1 as amended: for a relay task whose dial succeeded, under every schedule
and for every sequence of read chunks, in each direction (`Faithful`): the
bytes written to the destination are, in order and unmodified, an initial
segment of the bytes read from the source, which are the chunks read so far;
they are all of them between iterations and after a return without a write
error, all but the chunk in hand during an iteration, and the whole stream
after a return at end-of-stream; only after a write error may the end of what
was read be missing.  Each copy does move: it can write a chunk it holds, and
it can read when a result is waiting or its source handle has been closed.
And a copy ends with an error only for a cause (`EndCause`): a read error
when its source handle was closed by the task or its last read failed, a write
error when its destination handle was closed by the task or a write on it
failed. -/
theorem relay_bytes_faithful (c b : Conn) (sched : List Tid) :
    Faithful c.reads (run (some c) (some b) sched State.init).c2b
      (run (some c) (some b) sched State.init).client.rd
      (bytesRead Side.client (run (some c) (some b) sched State.init).trace)
      (bytesWritten Side.backend (run (some c) (some b) sched State.init).trace) ∧
    Faithful b.reads (run (some c) (some b) sched State.init).b2c
      (run (some c) (some b) sched State.init).backend.rd
      (bytesRead Side.backend (run (some c) (some b) sched State.init).trace)
      (bytesWritten Side.client (run (some c) (some b) sched State.init).trace) ∧
    (((∃ buf er, (run (some c) (some b) sched State.init).c2b = some (CopySt.wr buf er)) ∨
      ((run (some c) (some b) sched State.init).c2b = some CopySt.rd ∧
        ((run (some c) (some b) sched State.init).client.closed = true ∨
          (run (some c) (some b) sched State.init).client.rd < c.reads.length))) →
      step (some c) (some b) Tid.copier (run (some c) (some b) sched State.init) ≠ none) ∧
    (((∃ buf er, (run (some c) (some b) sched State.init).b2c = some (CopySt.wr buf er)) ∨
      ((run (some c) (some b) sched State.init).b2c = some CopySt.rd ∧
        ((run (some c) (some b) sched State.init).backend.closed = true ∨
          (run (some c) (some b) sched State.init).backend.rd < b.reads.length))) →
      step (some c) (some b) Tid.main (run (some c) (some b) sched State.init) ≠ none) ∧
    EndCause c b (run (some c) (some b) sched State.init).c2b
      (run (some c) (some b) sched State.init).client
      (run (some c) (some b) sched State.init).backend ∧
    EndCause b c (run (some c) (some b) sched State.init).b2c
      (run (some c) (some b) sched State.init).backend
      (run (some c) (some b) sched State.init).client := by
  obtain ⟨hp, h1, h2⟩ := inv_run c b sched
  refine ⟨faithful_of_copyInv _ _ _ _ _ h1, faithful_of_copyInv _ _ _ _ _ h2, ?_, ?_,
    (endInv_run c b sched).1, (endInv_run c b sched).2⟩
  · intro h
    generalize run (some c) (some b) sched State.init = s at hp h
    have hpc : s.pc ≠ MainPc.panicked := by
      intro hpc
      unfold PcInv at hp
      simp only [hpc] at hp
    have hst : ∃ st, s.c2b = some st ∧
        ((∃ buf er, st = CopySt.wr buf er) ∨
          (st = CopySt.rd ∧ (s.client.closed = true ∨ s.client.rd < c.reads.length))) := by
      rcases h with ⟨buf, er, h⟩ | ⟨h, h'⟩
      · exact ⟨_, h, Or.inl ⟨buf, er, rfl⟩⟩
      · exact ⟨_, h, Or.inr ⟨rfl, h'⟩⟩
    obtain ⟨st, hc, hen⟩ := hst
    have := copyStep_enabled Side.client Side.backend c b s.client s.backend st hen
    simp only [step, copierStep, hpc, if_false, hc]
    cases hq : copyStep Side.client Side.backend c b s.client s.backend st with
    | none => exact absurd hq this
    | some q => simp
  · intro h
    generalize run (some c) (some b) sched State.init = s at hp h
    have hst : ∃ st, s.b2c = some st ∧ (∀ r, st ≠ CopySt.fin r) ∧
        ((∃ buf er, st = CopySt.wr buf er) ∨
          (st = CopySt.rd ∧ (s.backend.closed = true ∨ s.backend.rd < b.reads.length))) := by
      rcases h with ⟨buf, er, h⟩ | ⟨h, h'⟩
      · exact ⟨_, h, by simp, Or.inl ⟨buf, er, rfl⟩⟩
      · exact ⟨_, h, by simp, Or.inr ⟨rfl, h'⟩⟩
    obtain ⟨st, hc, hnf, hen⟩ := hst
    have hpc : s.pc = MainPc.copy := by
      unfold PcInv at hp
      cases hq : s.pc <;> simp only [hq] at hp <;> simp only [Early, Late, B2cEnded] at hp
      case copy => rfl
      case ret =>
        rcases hp with hp | hp | hp | hp | hp
        · simp [hp.2.2.1] at hc
        · simp [hp.2.2.1] at hc
        · obtain ⟨r, hr⟩ := hp.1
          rw [hr] at hc
          exact absurd (Option.some.inj hc).symm (hnf r)
        · obtain ⟨r, hr⟩ := hp.1
          rw [hr] at hc
          exact absurd (Option.some.inj hc).symm (hnf r)
        · obtain ⟨r, hr⟩ := hp.1
          rw [hr] at hc
          exact absurd (Option.some.inj hc).symm (hnf r)
      case done =>
        rcases hp with hp | hp
        · simp [hp.2.2.1] at hc
        · obtain ⟨r, hr⟩ := hp.1
          rw [hr] at hc
          exact absurd (Option.some.inj hc).symm (hnf r)
      case logFailed => simp [hp.2.2.1] at hc
      case deferBackend => simp [hp.2.2.1] at hc
      case logConnected => simp [hp.2.2.1] at hc
      case go => simp [hp.2.2.1] at hc
      all_goals simp [hp.2.1] at hc
    have := copyStep_enabled Side.backend Side.client b c s.backend s.client st hen
    simp only [step, handlerStep, hpc, hc]
    cases st with
    | fin r => exact absurd rfl (hnf r)
    | rd =>
      cases hq : copyStep Side.backend Side.client b c s.backend s.client CopySt.rd with
      | none => exact absurd hq this
      | some q => simp
    | wr buf er =>
      cases hq : copyStep Side.backend Side.client b c s.backend s.client
          (CopySt.wr buf er) with
      | none => exact absurd hq this
      | some q => simp

/-- The example of the specification: the client sends PING, the backend
answers PONG, both copies return at end-of-stream and both messages have
reached the other side unchanged. -/
theorem relay_bytes_faithful_demo :
    (run (some demoClient) (some demoBackend) demoSched State.init).c2b =
      some (CopySt.fin CopyRes.ok) ∧
    (run (some demoClient) (some demoBackend) demoSched State.init).b2c =
      some (CopySt.fin CopyRes.ok) ∧
    bytesWritten Side.backend
      (run (some demoClient) (some demoBackend) demoSched State.init).trace = ping ∧
    bytesWritten Side.client
      (run (some demoClient) (some demoBackend) demoSched State.init).trace = pong := by
  have h := relay_bytes_faithful demoClient demoBackend demoSched
  exact ⟨by decide, by decide, (h.1.2.2.2.2.2.2 (by decide)).1,
    (h.2.1.2.2.2.2.2.2 (by decide)).1⟩

/-- C2: in every execution of a relay task (any connection, nil included, any
dial result, any schedule) and at every position of its trace: a sleep lasts
exactly the fixed delay of two seconds; a dial is preceded by that sleep; a
read, a write or the start of the copying goroutine is preceded by the
successful dial of `web:8080`, which is itself preceded by the sleep. -/
theorem sleep_dial_copy_order (conn dialed : Option Conn) (sched : List Tid)
    (pre post : List Event) (e : Event)
    (h : (run conn dialed sched State.init).trace = pre ++ e :: post) :
    delay = 2 * 1000000000 ∧
    (∀ n, e = Event.sleep n → n = delay) ∧
    (e.isDial = true → Event.sleep delay ∈ pre) ∧
    (e.isCopy = true ∨ e = Event.go →
      ∃ p1 p2, pre = p1 ++ Event.dial "tcp" "web:8080" true :: p2 ∧
        Event.sleep delay ∈ p1) := by
  refine ⟨rfl, ?_⟩
  cases conn with
  | none =>
    rcases run_nil dialed sched with h0 | h0
    · rw [h0] at h
      simp [State.init] at h
    · rw [h0] at h
      simp only [State.init, State.nilDeref, List.nil_append] at h
      cases pre with
      | nil =>
        simp only [List.nil_append, List.cons.injEq] at h
        obtain ⟨rfl, -⟩ := h
        simp [Event.isDial, Event.isCopy]
      | cons x xs => simp at h
  | some c => exact ordered_of_pcInv c dialed _ (pcInv_run c dialed sched) pre e post h

/-- The order of C2 at the first read of the PING/PONG run. -/
theorem sleep_dial_copy_order_demo :
    (run (some demoClient) (some demoBackend) demoSched State.init).trace =
        established demoClient ++ Event.read Side.client ping RErr.none ::
          (run (some demoClient) (some demoBackend) demoSched State.init).trace.drop 6 ∧
    ∃ p1 p2, established demoClient = p1 ++ Event.dial "tcp" "web:8080" true :: p2 ∧
      Event.sleep delay ∈ p1 :=
  ⟨by decide,
   (sleep_dial_copy_order (some demoClient) (some demoBackend) demoSched
      (established demoClient)
      ((run (some demoClient) (some demoBackend) demoSched State.init).trace.drop 6)
      (Event.read Side.client ping RErr.none) (by decide)).2.2.2 (Or.inl rfl)⟩

theorem pcInv_none (c : Conn) (s : State) (h : PcInv c none s) :
    s.c2b = none ∧ s.b2c = none ∧ s.backend.closed = false ∧
    (s.pc = MainPc.done → s.trace = fullCtl c none ∧ s.client.closed = true) ∧
    (rankFail s = 0 → s.pc = MainPc.done) := by
  unfold PcInv at h
  cases hp : s.pc <;> simp only [hp] at h <;> simp only [Early, Late, B2cEnded] at h
  case ret =>
    rcases h with ⟨-, -, h2, h3, -, h5, -⟩ | ⟨-, -, h2, h3, -, h5, -⟩ | h | h | h
    · exact ⟨h3, h2, h5, by simp, by simp [rankFail, hp]⟩
    · exact ⟨h3, h2, h5, by simp, by simp [rankFail, hp]⟩
    · simp at h
    · simp at h
    · simp at h
  case done =>
    rcases h with ⟨-, -, h2, h3, h4, h5, h6⟩ | h
    · exact ⟨h3, h2, h5, fun _ => ⟨h6, h4⟩, fun _ => rfl⟩
    · simp at h
  case deferBackend => simp at h
  case logConnected => simp at h
  case go => simp at h
  case copy => simp at h
  case logFailed =>
    obtain ⟨-, -, h2, h3, -, h5, -⟩ := h
    exact ⟨h3, h2, h5, by simp, by simp [rankFail, hp]⟩
  all_goals
    obtain ⟨-, h2, h3, -, h5, -⟩ := h
    exact ⟨h3, h2, h5, by simp, by simp [rankFail, hp]⟩

/-- C3: when the backend dial returns an error, under every schedule the
trace of the task is an initial segment of: log of the new connection, sleep,
the one failed dial, log of the failure, close of the client connection.  So
no read or write ever happens, no second dial happens and neither copy is
started; the task returns after its seven steps, and when it has returned it
has logged the failure and closed the client connection. -/
theorem dial_failure_closes_client (c : Conn) (sched : List Tid) :
    (run (some c) none sched State.init).trace <+:
      [Event.logNew c.remoteAddr, Event.sleep delay, Event.dial "tcp" "web:8080" false,
       Event.logFailed, Event.close Side.client] ∧
    (∀ e ∈ (run (some c) none sched State.init).trace, e.isCopy = false) ∧
    ((run (some c) none sched State.init).trace.filter Event.isDial).length ≤ 1 ∧
    (run (some c) none sched State.init).c2b = none ∧
    (run (some c) none sched State.init).b2c = none ∧
    (run (some c) none sched State.init).backend.closed = false ∧
    ((run (some c) none sched State.init).pc = MainPc.done →
      (run (some c) none sched State.init).trace =
        [Event.logNew c.remoteAddr, Event.sleep delay, Event.dial "tcp" "web:8080" false,
         Event.logFailed, Event.close Side.client] ∧
      (run (some c) none sched State.init).client.closed = true) ∧
    (7 ≤ sched.count Tid.main → (run (some c) none sched State.init).pc = MainPc.done) := by
  have hp := pcInv_run c none sched
  obtain ⟨h1, h2, h3, h4, h5⟩ := pcInv_none c _ hp
  obtain ⟨k1, -, k3, -⟩ := ctl_of_pcInv c none _ hp
  have hpre : (run (some c) none sched State.init).trace <+: fullCtl c none := by
    rw [← k3 h1]; exact k1
  refine ⟨hpre, ?_, ?_, h1, h2, h3, h4, ?_⟩
  · intro e he
    have := hpre.subset he
    simp only [fullCtl, opening, Option.isSome_none, Bool.false_eq_true, if_false,
      List.cons_append, List.nil_append, List.mem_cons, List.mem_singleton] at this
    rcases this with rfl | rfl | rfl | rfl | rfl | h
    all_goals first | rfl | simp at h
  · have := (hpre.sublist.filter Event.isDial).length_le
    simpa [fullCtl, opening, Event.isDial] using this
  · intro h7
    have := failure_progress c sched
    exact h5 (by omega)

theorem filter_dial_ctl (tr : List Event) :
    (ctl tr).filter Event.isDial = tr.filter Event.isDial := by
  unfold ctl
  rw [List.filter_filter]
  apply List.filter_congr
  intro x _
  cases x <;> rfl

theorem count_close_ctl (tr : List Event) (d : Side) :
    (ctl tr).count (Event.close d) = tr.count (Event.close d) := by
  unfold ctl
  exact List.count_filter (by rfl)

theorem pcInv_done (c : Conn) (dialed : Option Conn) (s : State) (h : PcInv c dialed s)
    (hd : s.pc = MainPc.done) :
    s.client.closed = true ∧ s.backend.closed = dialed.isSome ∧ s.defers = [] := by
  unfold PcInv at h
  simp only [hd] at h
  rcases h with ⟨rfl, h1, -, -, h4, h5, -⟩ | ⟨-, h0, h1, -, -, h4, h5, -⟩
  · exact ⟨h4, by simp [h5], h1⟩
  · exact ⟨h4, by simp [h5, h0], h1⟩

/-- C4: whenever a relay task started on a valid client connection has
returned (after a failed dial, or after the end of the backend-to-client
copy), and whatever the copying goroutine does before or after, the task has
called `Close` on the client connection exactly once and on the backend
connection exactly once if the dial succeeded and never otherwise; the client
handle is closed, the backend handle is closed iff it was opened, and no
deferred call is left. -/
theorem connections_closed_once (c : Conn) (dialed : Option Conn) (sched : List Tid)
    (h : (run (some c) dialed sched State.init).pc = MainPc.done) :
    (run (some c) dialed sched State.init).trace.count (Event.close Side.client) = 1 ∧
    (run (some c) dialed sched State.init).trace.count (Event.close Side.backend) =
      (if dialed.isSome then 1 else 0) ∧
    (run (some c) dialed sched State.init).client.closed = true ∧
    (run (some c) dialed sched State.init).backend.closed = dialed.isSome ∧
    (run (some c) dialed sched State.init).defers = [] := by
  have hp := pcInv_run c dialed sched
  obtain ⟨-, k2, -, -⟩ := ctl_of_pcInv c dialed _ hp
  obtain ⟨a1, a2, a3⟩ := pcInv_done c dialed _ hp h
  have hc := k2 h
  refine ⟨?_, ?_, a1, a2, a3⟩
  · rw [← count_close_ctl, hc]
    cases dialed <;> simp [fullCtl, established, opening, List.count_cons]
  · rw [← count_close_ctl, hc]
    cases dialed <;> simp [fullCtl, established, opening, List.count_cons]

/-- The PING/PONG run returns, with each connection closed once. -/
theorem connections_closed_once_demo :
    (run (some demoClient) (some demoBackend) demoSched State.init).pc = MainPc.done ∧
    (run (some demoClient) (some demoBackend) demoSched State.init).trace.count
      (Event.close Side.client) = 1 :=
  ⟨by decide,
   (connections_closed_once demoClient (some demoBackend) demoSched (by decide)).1⟩

/-- C7: in every execution of a relay task (any connection, any dial result,
any schedule) the trace holds at most one dial, and every dial in it is the
dial of tcp `web:8080`; this covers the runs in which the dial failed. -/
theorem single_dial_fixed_address (conn dialed : Option Conn) (sched : List Tid) :
    ((run conn dialed sched State.init).trace.filter Event.isDial).length ≤ 1 ∧
    ∀ e ∈ (run conn dialed sched State.init).trace, e.isDial = true →
      e = Event.dial "tcp" "web:8080" dialed.isSome := by
  cases conn with
  | none =>
    rcases run_nil dialed sched with h0 | h0 <;> rw [h0] <;>
      simp [State.init, State.nilDeref, Event.isDial]
  | some c =>
    have hp := pcInv_run c dialed sched
    obtain ⟨k1, -, -, -⟩ := ctl_of_pcInv c dialed _ hp
    constructor
    · rw [← filter_dial_ctl]
      have := (k1.sublist.filter Event.isDial).length_le
      refine this.trans ?_
      cases dialed <;> simp [fullCtl, established, opening, Event.isDial]
    · intro e he hd
      have hm : e ∈ ctl (run (some c) dialed sched State.init).trace := by
        refine mem_ctl _ e he ?_
        cases e <;> simp [Event.isDial, Event.isCopy] at hd ⊢
      have := k1.subset hm
      cases dialed <;>
        simp only [fullCtl, established, opening, Option.isSome_none, Option.isSome_some,
          Bool.false_eq_true, if_false, if_true, List.cons_append, List.nil_append,
          List.mem_cons, List.mem_singleton, List.not_mem_nil, or_false] at this
      · rcases this with rfl | rfl | rfl | rfl | rfl
        all_goals first | rfl | simp [Event.isDial] at hd
      · rcases this with rfl | rfl | rfl | rfl | rfl | rfl | rfl
        all_goals first | rfl | simp [Event.isDial] at hd

theorem take_three_established (c : Conn) (tr : List Event) (h : established c <+: tr) :
    tr.take 3 = opening c true := by
  obtain ⟨t, rfl⟩ := h
  simp [established, opening]

/-- The first three events of a trace are fixed by how far the handler has
come, the client's address and the dial result. -/
theorem opening_seen (c : Conn) (dialed : Option Conn) (s : State) (h : PcInv c dialed s) :
    s.trace.take 3 = (opening c dialed.isSome).take (3 - rankOpen s.pc) := by
  unfold PcInv at h
  cases hp : s.pc <;> simp only [hp] at h <;> simp only [Early, Late] at h
  case deferConn => simp [h.2.2.2.2.2, rankOpen]
  case logNew => simp [h.2.2.2.2.2, rankOpen]
  case sleep => simp [h.2.2.2.2.2, rankOpen, opening]
  case dial => simp [h.2.2.2.2.2, rankOpen, opening]
  case logFailed => simp [h.1, h.2.2.2.2.2.2, rankOpen, opening]
  case deferBackend => simp [h.1, h.2.2.2.2.2.2, rankOpen, opening]
  case logConnected => simp [h.1, h.2.2.2.2.2.2, rankOpen, opening]
  case go => simp [h.1, h.2.2.2.2.2.2, rankOpen, opening]
  case copy =>
    rw [take_three_established c _ h.2.2.2.2.2.2.2]
    simp [h.1, rankOpen, opening]
  case ret =>
    rcases h with h | h | h | h | h
    · simp [h.1, h.2.2.2.2.2.2, rankOpen, opening]
    · simp [h.1, h.2.2.2.2.2.2, rankOpen, opening, fullCtl]
    · rw [take_three_established c _ h.2.2.2.2.2.2.2.2]
      simp [h.2.1, rankOpen, opening]
    · rw [take_three_established c _ h.2.2.2.2.2.2.2.2]
      simp [h.2.1, rankOpen, opening]
    · rw [take_three_established c _ h.2.2.2.2.2.2.2.2]
      simp [h.2.1, rankOpen, opening]
  case done =>
    rcases h with h | h
    · simp [h.1, h.2.2.2.2.2.2, rankOpen, opening, fullCtl]
    · rw [take_three_established c _ h.2.2.2.2.2.2.2.2]
      simp [h.2.1, rankOpen, opening]

theorem opening_of_run (c : Conn) (dialed : Option Conn) (sched : List Tid) :
    (run (some c) dialed sched State.init).trace.take 3 =
      (opening c dialed.isSome).take (sched.count Tid.main - 1) := by
  rw [opening_seen c dialed _ (pcInv_run c dialed sched), opening_progress]
  by_cases h4 : 4 ≤ sched.count Tid.main
  · rw [List.take_of_length_le (by simp [opening]; omega),
      List.take_of_length_le (by simp [opening]; omega)]
  · congr 1
    omega

/-- C9: the actions of a relay task up to and including the dial do not depend
on what the client does.  For two clients with the same address that differ
in anything else (one may have closed its side at once), under the same
schedule and dial result, the first three events of the two traces agree: they
are the first events of log, sleep of the full delay, one dial of `web:8080`,
as many as the handler has had steps for, and all three once it has had four
steps, with no exit before.  And when the dial succeeded and the task has
returned, the backend connection has been closed, exactly once. -/
theorem dial_ignores_client_state (c1 c2 : Conn) (dialed : Option Conn) (sched : List Tid)
    (haddr : c1.remoteAddr = c2.remoteAddr) :
    (run (some c1) dialed sched State.init).trace.take 3 =
      (run (some c2) dialed sched State.init).trace.take 3 ∧
    (run (some c1) dialed sched State.init).trace.take 3 =
      [Event.logNew c1.remoteAddr, Event.sleep delay,
        Event.dial "tcp" "web:8080" dialed.isSome].take (sched.count Tid.main - 1) ∧
    (4 ≤ sched.count Tid.main →
      (run (some c1) dialed sched State.init).trace.take 3 =
        [Event.logNew c1.remoteAddr, Event.sleep delay,
          Event.dial "tcp" "web:8080" dialed.isSome]) ∧
    (dialed.isSome = true → (run (some c1) dialed sched State.init).pc = MainPc.done →
      (run (some c1) dialed sched State.init).backend.closed = true ∧
      (run (some c1) dialed sched State.init).trace.count (Event.close Side.backend) = 1) := by
  have e1 := opening_of_run c1 dialed sched
  have e2 := opening_of_run c2 dialed sched
  refine ⟨?_, e1, ?_, ?_⟩
  · rw [e1, e2]
    simp [opening, haddr]
  · intro h4
    rw [e1]
    exact List.take_of_length_le (by simp [opening]; omega)
  · intro hd hdone
    have hp := pcInv_run c1 dialed sched
    obtain ⟨-, k2, -, -⟩ := ctl_of_pcInv c1 dialed _ hp
    obtain ⟨-, a2, -⟩ := pcInv_done c1 dialed _ hp hdone
    refine ⟨by rw [a2, hd], ?_⟩
    rw [← count_close_ctl, k2 hdone]
    simp [fullCtl, established, opening, List.count_cons, hd]

/-- C9 at a client that sends PING and one that has closed at once. -/
theorem dial_ignores_client_state_demo :
    demoClient.remoteAddr = closedClient.remoteAddr ∧
    (run (some demoClient) (some demoBackend) demoSched State.init).trace.take 3 =
      (run (some closedClient) (some demoBackend) demoSched State.init).trace.take 3 :=
  ⟨by decide,
   (dial_ignores_client_state demoClient closedClient (some demoBackend) demoSched
      (by decide)).1⟩

theorem dial_count_of_pcInv (c : Conn) (dialed : Option Conn) (s : State)
    (h : PcInv c dialed s) : (s.trace.filter Event.isDial).length ≤ 1 := by
  obtain ⟨k1, -, -, -⟩ := ctl_of_pcInv c dialed s h
  rw [← filter_dial_ctl]
  refine ((k1.sublist.filter Event.isDial).length_le).trans ?_
  cases dialed <;> simp [fullCtl, established, opening, Event.isDial]

/-- Whether the handler can move depends only on its program counter, the
state of its own copy and the read side of the backend handle. -/
theorem handlerStep_enabled_congr (conn dialed : Option Conn) (s1 s2 : State)
    (hpc : s1.pc = s2.pc) (hb : s1.b2c = s2.b2c)
    (hcl : s1.backend.closed = s2.backend.closed) (hrd : s1.backend.rd = s2.backend.rd) :
    (handlerStep conn dialed s1).isSome = (handlerStep conn dialed s2).isSome := by
  obtain ⟨pc1, defers1, b2c1, c2b1, client1, backend1, trace1⟩ := s1
  obtain ⟨pc2, defers2, b2c2, c2b2, client2, backend2, trace2⟩ := s2
  simp only at hpc hb hcl hrd
  subst hpc hb
  cases pc1 <;> simp only [handlerStep]
  case deferConn => cases conn <;> rfl
  case logNew => cases conn <;> rfl
  case logConnected => cases conn <;> rfl
  case ret => cases defers1 <;> cases defers2 <;> rfl
  case copy =>
    cases conn with
    | none => rfl
    | some c =>
      cases dialed with
      | none => rfl
      | some b =>
        cases b2c1 with
        | none => rfl
        | some st =>
          cases st with
          | fin r => rfl
          | wr buf er =>
            simp only [copyStep]
            rfl
          | rd =>
            simp only [copyStep, readConn, hcl, hrd]
            cases backend2.closed with
            | true => rfl
            | false =>
              simp only [Bool.false_eq_true, if_false]
              cases b.reads[backend2.rd]? <;> rfl
  all_goals rfl

/-- With a backend, a closed handle or a returning handler means that
`io.Copy(conn, backend)` has returned. -/
theorem ended_of_closed (c b : Conn) (s : State) (h : PcInv c (some b) s)
    (hc : s.client.closed = true ∨ s.backend.closed = true ∨ s.pc = MainPc.ret ∨
      s.pc = MainPc.done) : B2cEnded s := by
  unfold PcInv at h
  cases hp : s.pc <;> simp only [hp] at h hc <;> simp only [Early, Late] at h
  case ret =>
    rcases h with h | h | h | h | h
    · simp at h
    · simp at h
    · exact h.1
    · exact h.1
    · exact h.1
  case done =>
    rcases h with h | h
    · simp at h
    · exact h.1
  case copy =>
    obtain ⟨-, -, -, -, h4, h5, -⟩ := h
    simp [h4, h5] at hc
  case logFailed => simp at h
  case deferBackend =>
    obtain ⟨-, -, -, -, h4, h5, -⟩ := h
    simp [h4, h5] at hc
  case logConnected =>
    obtain ⟨-, -, -, -, h4, h5, -⟩ := h
    simp [h4, h5] at hc
  case go =>
    obtain ⟨-, -, -, -, h4, h5, -⟩ := h
    simp [h4, h5] at hc
  all_goals
    obtain ⟨-, -, -, h4, h5, -⟩ := h
    simp [h4, h5] at hc

theorem done_of_ended (c : Conn) (dialed : Option Conn) (s : State) (h : PcInv c dialed s)
    (he : B2cEnded s) (hr : rankEnd s = 0) : s.pc = MainPc.done := by
  obtain ⟨r, hb⟩ := he
  unfold PcInv at h
  cases hp : s.pc <;> simp only [hp] at h <;> simp only [Early, Late] at h
  case done => rfl
  case ret => simp [rankEnd, hp] at hr
  case copy => simp [rankEnd, hp] at hr
  case logFailed => simp [h.2.2.1] at hb
  case deferBackend => simp [h.2.2.1] at hb
  case logConnected => simp [h.2.2.1] at hb
  case go => simp [h.2.2.1] at hb
  all_goals simp [h.2.1] at hb

/-- Once `io.Copy(conn, backend)` has returned, four more steps of the handler
bring the return with both handles closed, whatever the goroutine does. -/
theorem returns_after_b2c (c : Conn) (dialed : Option Conn) (s : State) (more : List Tid)
    (hp : PcInv c dialed s) (he : B2cEnded s) (h4 : 4 ≤ more.count Tid.main) :
    (run (some c) dialed more s).pc = MainPc.done ∧
    (run (some c) dialed more s).client.closed = true ∧
    (run (some c) dialed more s).backend.closed = dialed.isSome ∧
    PcInv c dialed (run (some c) dialed more s) := by
  obtain ⟨e1, e2, e3⟩ := ending_progress c dialed more s hp he
  have hle : rankEnd s ≤ 4 := by
    obtain ⟨r, hb⟩ := he
    unfold PcInv at hp
    cases hpc : s.pc <;> simp only [hpc] at hp <;> simp only [Early, Late] at hp <;>
      simp only [rankEnd, hpc]
    case ret =>
      rcases hp with h | h | h | h | h
      · simp [h.2.1]
      · simp [h.2.1]
      · simp [h.2.2.1]
      · simp [h.2.2.1]
      · simp [h.2.2.1]
    all_goals omega
  have hdone := done_of_ended c dialed _ e2 e3 (by omega)
  obtain ⟨a1, a2, -⟩ := pcInv_done c dialed _ e2 hdone
  exact ⟨hdone, a1, a2, e2⟩

/-- Counting argument with slack: when the handler can always move while
`rank` is positive, each of its steps lowers `rank` by at least one and the
goroutine does not raise it, `rank` after a schedule is at most the initial
rank less the number of picks of the handler. -/
theorem run_rank_le (conn dialed : Option Conn) (P : State → Prop) (rank : State → Nat)
    (hP : ∀ t s s', P s → step conn dialed t s = some s' → P s')
    (hen : ∀ s, P s → 0 < rank s → step conn dialed Tid.main s ≠ none)
    (hmain : ∀ s s', P s → step conn dialed Tid.main s = some s' → rank s' + 1 ≤ rank s)
    (hcop : ∀ s s', P s → step conn dialed Tid.copier s = some s' → rank s' ≤ rank s)
    (sched : List Tid) (s : State) (h : P s) :
    rank (run conn dialed sched s) ≤ rank s - sched.count Tid.main := by
  induction sched generalizing s with
  | nil => simp [run]
  | cons t ts ih =>
    cases t with
    | main =>
      simp only [run, List.count_cons_self]
      cases hs : step conn dialed Tid.main s with
      | none =>
        have h0 : rank s = 0 := by
          rcases Nat.eq_zero_or_pos (rank s) with h0 | h0
          · exact h0
          · exact absurd hs (hen s h h0)
        have := ih s h
        simp only [h0, Nat.zero_sub] at this ⊢
        exact this
      | some s' =>
        have h1 := ih s' (hP _ _ _ h hs)
        have h2 := hmain s s' h hs
        simp only
        omega
    | copier =>
      have hne : (Tid.copier == Tid.main) = false := by decide
      simp only [run, List.count_cons, hne]
      cases hs : step conn dialed Tid.copier s with
      | none => simpa using ih s h
      | some s' =>
        have h1 := ih s' (hP _ _ _ h hs)
        have h2 := hcop s s' h hs
        simp only [Bool.false_eq_true, if_false, Nat.add_zero] at h1 ⊢
        omega

theorem clean_le (reads : List ReadRes) (j k : Nat) (r : ReadRes) (hc : Clean reads j)
    (hk : reads[k]? = some r) (hr : r.err ≠ RErr.none) : j ≤ k := by
  by_contra hlt
  have hlt' : k < j := Nat.lt_of_not_le hlt
  have h1 : (reads.take j)[k]? = some r := by rw [List.getElem?_take_of_lt hlt', hk]
  exact hr (hc r (List.getElem?_mem h1))

/-- Liveness of the handler: if read number `k` of the backend carries an
error or end-of-stream, then under every schedule in which the handler gets
`2 * k + 13` steps the task has returned, with both handles closed, whatever
the client and the goroutine do. -/
theorem returns_when_backend_ends (c b : Conn) (k : Nat) (r : ReadRes)
    (hk : b.reads[k]? = some r) (hr : r.err ≠ RErr.none) (sched : List Tid)
    (hn : 2 * k + 13 ≤ sched.count Tid.main) :
    (run (some c) (some b) sched State.init).pc = MainPc.done ∧
    (run (some c) (some b) sched State.init).client.closed = true ∧
    (run (some c) (some b) sched State.init).backend.closed = true := by
  have hklt : k < b.reads.length := by
    rcases List.getElem?_eq_some.1 hk with ⟨hlt, -⟩
    exact hlt
  have hinv : ∀ t s s', (PcInv c (some b) s ∧ DataInv c b s) →
      step (some c) (some b) t s = some s' → (PcInv c (some b) s' ∧ DataInv c b s') :=
    fun t s s' h hs =>
      ⟨pcInv_step c (some b) t s s' h.1 hs, dataInv_step c b t s s' h.1 h.2 hs⟩
  have hrank := run_rank_le (some c) (some b) (fun s => PcInv c (some b) s ∧ DataInv c b s)
    (rankLive k) hinv ?_ ?_ ?_ sched State.init ⟨pcInv_init c (some b), dataInv_init c b⟩
  · have hp := pcInv_run c (some b) sched
    have h0 : rankLive k (run (some c) (some b) sched State.init) = 0 := by
      have : rankLive k State.init = 2 * k + 13 := rfl
      omega
    have hdone : (run (some c) (some b) sched State.init).pc = MainPc.done := by
      generalize run (some c) (some b) sched State.init = s at hp h0
      unfold PcInv at hp
      cases hq : s.pc <;> simp only [hq] at hp <;> simp only [rankLive, hq] at h0
      case done => rfl
      case logFailed => simp at hp
      case copy => split at h0 <;> omega
      all_goals omega
    obtain ⟨a1, a2, -⟩ := pcInv_done c (some b) _ hp hdone
    exact ⟨hdone, a1, by simpa using a2⟩
  · intro s hP hpos
    obtain ⟨hp, -, hd⟩ := hP
    obtain ⟨pc, defers, b2c, c2b, client, backend, trace⟩ := s
    cases pc <;> simp only [PcInv, Early, Late] at hp <;>
      simp only [rankLive] at hpos <;> simp only [step, handlerStep]
    case copy =>
      obtain ⟨-, -, hb, -⟩ := hp
      cases b2c with
      | none => simp at hb
      | some st =>
        cases st with
        | fin r0 => simp
        | wr buf er =>
          have := copyStep_enabled Side.backend Side.client b c backend client
            (CopySt.wr buf er) (Or.inl ⟨buf, er, rfl⟩)
          cases hq : copyStep Side.backend Side.client b c backend client
              (CopySt.wr buf er) with
          | none => exact absurd hq this
          | some q => simp [hq]
        | rd =>
          have hj : backend.rd ≤ k := clean_le b.reads _ k r hd.2.2.2.2 hk hr
          have := copyStep_enabled Side.backend Side.client b c backend client
            CopySt.rd (Or.inr ⟨rfl, Or.inr (by omega)⟩)
          cases hq : copyStep Side.backend Side.client b c backend client CopySt.rd with
          | none => exact absurd hq this
          | some q => simp [hq]
    case ret => cases defers <;> simp
    all_goals first | omega | simp
  · intro s s' hP hs
    obtain ⟨hp, -, hd⟩ := hP
    obtain ⟨pc, defers, b2c, c2b, client, backend, trace⟩ := s
    cases pc <;> simp only [PcInv, Early, Late] at hp <;>
      simp only [step, handlerStep] at hs
    case logFailed => simp at hp
    case go =>
      obtain ⟨-, -, hb0, -⟩ := hp
      subst hb0
      have hrd : backend.rd = 0 := hd.2.2.2.1
      simp at hs; subst hs
      simp only [rankLive, State.emit, hrd]
      omega
    case copy =>
      obtain ⟨-, hdef, hb, -⟩ := hp
      cases b2c with
      | none => simp at hb
      | some st =>
        cases st with
        | fin r0 =>
          simp at hs; subst hs
          simp [rankLive, hdef]
        | rd =>
          have hj : backend.rd ≤ k := clean_le b.reads _ k r hd.2.2.2.2 hk hr
          simp only at hs
          cases hq : copyStep Side.backend Side.client b c backend client CopySt.rd with
          | none => simp [hq] at hs
          | some q =>
            obtain ⟨st', src', dst', e⟩ := q
            simp only [hq, Option.some.injEq] at hs
            subst hs
            rcases copyStep_cases _ _ _ _ _ _ _ _ _ _ _ hq with
              ⟨r1, -, hrc, -, -, hst⟩ | ⟨buf, er, n, failed, h0, -⟩
            · rcases (readConn_some b backend src' r1 hrc).2.2 with
                ⟨-, hr1, hsrc⟩ | ⟨-, -, hrd⟩
              · subst hr1 hsrc
                simp only [List.length_nil, Nat.lt_irrefl, if_false, afterChunk] at hst
                subst hst
                simp only [rankLive]
                omega
              · by_cases hpos : 0 < r1.data.length
                · simp only [hpos, if_true] at hst
                  subst hst
                  simp only [rankLive, hrd]
                  omega
                · simp only [hpos, if_false] at hst
                  subst hst
                  cases r1.err <;> simp only [afterChunk, rankLive, hrd] <;> omega
            · simp at h0
        | wr buf er =>
          simp only at hs
          cases hq : copyStep Side.backend Side.client b c backend client
              (CopySt.wr buf er) with
          | none => simp [hq] at hs
          | some q =>
            obtain ⟨st', src', dst', e⟩ := q
            simp only [hq, Option.some.injEq] at hs
            subst hs
            rcases copyStep_cases _ _ _ _ _ _ _ _ _ _ _ hq with
              ⟨r1, h0, -⟩ | ⟨buf', er', n, failed, h0, -, hsrc, -, hst⟩
            · simp at h0
            · simp only [CopySt.wr.injEq] at h0
              obtain ⟨rfl, rfl⟩ := h0
              subst hsrc hst
              cases failed
              · cases er <;> simp only [Bool.false_eq_true, if_false, afterChunk, rankLive] <;>
                  omega
              · simp only [if_true, rankLive]
                omega
    case ret =>
      cases defers with
      | nil => simp at hs; subst hs; simp [rankLive]
      | cons d ds =>
        simp at hs; subst hs
        cases d <;> simp [rankLive, State.closeSide] <;> omega
    case done => simp at hs
    case dial =>
      simp at hs; subst hs
      simp only [rankLive, State.emit, Option.isSome_some, if_true]
      omega
    all_goals (simp at hs; subst hs; simp only [rankLive, State.emit]; omega)
  · intro s s' _ hs
    simp only [step] at hs
    obtain ⟨f1, f2, f3, -, -, f6, -⟩ := copierStep_frame _ _ _ _ hs
    simp only [rankLive, f1, f2, f3, f6]
    exact le_refl _

/-- C10: in an established relay, under every schedule: (1) a handle is
closed, or the handler is returning or has returned, only if the
backend-to-client copy has ended; (2) once that copy has ended the handler can
always move until it has returned, and after four more of its steps, whatever
the goroutine does in between, it has returned with both handles closed: it
does not wait for the client-to-backend copy; (3) a step of the
client-to-backend copy, its last one included, closes no handle, leaves the
handler and the backend-to-client copy where they are, and does not change
whether the handler can move; (4) the handler does reach that return: if read
number `k` of the backend carries end-of-stream or an error, then once the
handler has had `2 * k + 13` steps the task has returned with both handles
closed, whatever the client and the client-to-backend copy do; (5) the
backend-to-client copy has ended only at the backend's end-of-stream, on a
failed read of the backend, or on a failed write to the client (the
alternative of a handle closed by the task holds only once the handler is
closing on its return, by (1)). -/
theorem return_follows_backend_copy (c b : Conn) (sched : List Tid) :
    (((run (some c) (some b) sched State.init).client.closed = true ∨
      (run (some c) (some b) sched State.init).backend.closed = true ∨
      (run (some c) (some b) sched State.init).pc = MainPc.ret ∨
      (run (some c) (some b) sched State.init).pc = MainPc.done) →
      B2cEnded (run (some c) (some b) sched State.init)) ∧
    (B2cEnded (run (some c) (some b) sched State.init) →
      ((run (some c) (some b) sched State.init).pc ≠ MainPc.done →
        step (some c) (some b) Tid.main (run (some c) (some b) sched State.init) ≠ none) ∧
      ∀ more : List Tid, 4 ≤ more.count Tid.main →
        (run (some c) (some b) more (run (some c) (some b) sched State.init)).pc =
          MainPc.done ∧
        (run (some c) (some b) more
          (run (some c) (some b) sched State.init)).client.closed = true ∧
        (run (some c) (some b) more
          (run (some c) (some b) sched State.init)).backend.closed = true) ∧
    (∀ s', step (some c) (some b) Tid.copier (run (some c) (some b) sched State.init) =
        some s' →
      s'.pc = (run (some c) (some b) sched State.init).pc ∧
      s'.b2c = (run (some c) (some b) sched State.init).b2c ∧
      s'.client.closed = (run (some c) (some b) sched State.init).client.closed ∧
      s'.backend.closed = (run (some c) (some b) sched State.init).backend.closed ∧
      (step (some c) (some b) Tid.main s').isSome =
        (step (some c) (some b) Tid.main
          (run (some c) (some b) sched State.init)).isSome) ∧
    (∀ (k : Nat) (r : ReadRes), b.reads[k]? = some r → r.err ≠ RErr.none →
      2 * k + 13 ≤ sched.count Tid.main →
      (run (some c) (some b) sched State.init).pc = MainPc.done ∧
      (run (some c) (some b) sched State.init).client.closed = true ∧
      (run (some c) (some b) sched State.init).backend.closed = true) ∧
    (∀ res, (run (some c) (some b) sched State.init).b2c = some (CopySt.fin res) →
      (res = CopyRes.ok ∧ 0 < (run (some c) (some b) sched State.init).backend.rd ∧
        ∃ r, b.reads[(run (some c) (some b) sched State.init).backend.rd - 1]? = some r ∧
          r.err = RErr.eof) ∨
      (res = CopyRes.readErr ∧
        ((run (some c) (some b) sched State.init).backend.closed = true ∨
          (0 < (run (some c) (some b) sched State.init).backend.rd ∧
            ∃ r, b.reads[(run (some c) (some b) sched State.init).backend.rd - 1]? = some r ∧
              r.err = RErr.fail))) ∨
      (res = CopyRes.writeErr ∧
        ((run (some c) (some b) sched State.init).client.closed = true ∨
          ∃ i n, i < (run (some c) (some b) sched State.init).client.wr ∧
            c.writes[i]? = some (WriteRes.fail n)))) := by
  have hp := pcInv_run c (some b) sched
  refine ⟨ended_of_closed c b _ hp, fun he => ⟨?_, ?_⟩, ?_,
    fun k r hk hr hn => returns_when_backend_ends c b k r hk hr sched hn, ?_⟩
  rotate_right
  · intro res hres
    obtain ⟨-, -, h2⟩ := inv_run c b sched
    have hf := faithful_of_copyInv _ _ _ _ _ h2
    obtain ⟨e1, e2, -⟩ := (endInv_run c b sched).2
    cases res with
    | ok => exact Or.inl ⟨rfl, (hf.2.2.2.2.2.2 hres).2⟩
    | readErr => exact Or.inr (Or.inl ⟨rfl, e1 hres⟩)
    | writeErr => exact Or.inr (Or.inr ⟨rfl, e2 hres⟩)
  · intro hnd hnone
    have h1 := (ending_progress c (some b) [Tid.main] _ hp he).1
    have h0 : rankEnd (run (some c) (some b) sched State.init) ≠ 0 :=
      fun h0 => hnd (done_of_ended c (some b) _ hp he h0)
    simp only [run, hnone, List.count_cons_self, List.count_nil] at h1
    omega
  · intro more h4
    obtain ⟨a1, a2, a3, -⟩ := returns_after_b2c c (some b) _ more hp he h4
    exact ⟨a1, a2, by simpa using a3⟩
  · intro s' hs
    simp only [step] at hs
    obtain ⟨f1, -, f3, f4, f5, f6, -⟩ := copierStep_frame _ _ _ _ hs
    exact ⟨f1, f3, f4, f5, handlerStep_enabled_congr (some c) (some b) _ _ f1 f3 f5 f6⟩

/-- C10 at a silent client and a backend whose first read fails: after
thirteen steps of the handler the task has returned with both handles closed,
while the client-to-backend copy has not ended and never moved. -/
theorem return_follows_backend_copy_demo :
    ((run (some silentClient) (some failingBackend) (List.replicate 13 Tid.main)
        State.init).pc = MainPc.done ∧
      (run (some silentClient) (some failingBackend) (List.replicate 13 Tid.main)
        State.init).client.closed = true ∧
      (run (some silentClient) (some failingBackend) (List.replicate 13 Tid.main)
        State.init).backend.closed = true) ∧
    (run (some silentClient) (some failingBackend) (List.replicate 13 Tid.main)
      State.init).c2b = some CopySt.rd ∧
    (run (some silentClient) (some failingBackend) (List.replicate 13 Tid.main)
      State.init).b2c = some (CopySt.fin CopyRes.readErr) :=
  ⟨(return_follows_backend_copy silentClient failingBackend
      (List.replicate 13 Tid.main)).2.2.2.1 0 ⟨[], RErr.fail⟩ (by decide) (by decide)
      (by decide),
   by decide, by decide⟩

/-- C6 fails as stated, in two ways.  First run: the client-to-backend copy
fails with a read error while the backend is silent; the task does not
terminate (the handler is blocked in its read of the backend and no thread can
move), neither connection is closed, and nothing was logged about the failure.
Second run: the backend-to-client copy fails with a read error; the task
returns with both connections closed, and again the only log lines are the two
of an established relay. -/
theorem copy_failure_counterexample :
    (stuckRun.c2b = some (CopySt.fin CopyRes.readErr) ∧
      stuckRun.pc = MainPc.copy ∧
      stuckRun.client.closed = false ∧ stuckRun.backend.closed = false ∧
      step (some failingClient) (some silentBackend) Tid.main stuckRun = none ∧
      step (some failingClient) (some silentBackend) Tid.copier stuckRun = none ∧
      stuckRun.trace =
        [Event.logNew "10.0.0.7:5000", Event.sleep delay, Event.dial "tcp" "web:8080" true,
         Event.logConnected "10.0.0.7:5000", Event.go,
         Event.read Side.client [] RErr.fail]) ∧
    (failedRun.b2c = some (CopySt.fin CopyRes.readErr) ∧
      failedRun.pc = MainPc.done ∧
      failedRun.trace =
        [Event.logNew "10.0.0.7:5000", Event.sleep delay, Event.dial "tcp" "web:8080" true,
         Event.logConnected "10.0.0.7:5000", Event.go,
         Event.read Side.backend [] RErr.fail,
         Event.close Side.backend, Event.close Side.client]) := by
  decide

/-- C6 as amended: in an established relay, under every schedule: (1) if the
backend-to-client copy has failed with an I/O error, then after four more
steps of the handler, whatever the goroutine does, the task has returned with
both connections closed, that copy is still ended and there has been no
second dial; (2) such a failure does end the task: if read number `k` of the
backend carries an error, then once the handler has had `2 * k + 13` steps the
task has returned with both connections closed and at most one dial in its
trace; (3) a connection is closed, or the handler returning or returned, only
if the backend-to-client copy has ended, so a failure of the client-to-backend
copy alone closes nothing; (4) a step of the client-to-backend copy, a failing
one included, neither moves the handler nor closes a connection; (5) the only
log lines in the trace are the new-connection and the connected-to-backend
messages: a copy failure is not logged. -/
theorem backend_copy_failure_ends_relay (c b : Conn) (sched : List Tid) :
    (∀ r, (run (some c) (some b) sched State.init).b2c = some (CopySt.fin r) →
      r ≠ CopyRes.ok →
      ∀ more : List Tid, 4 ≤ more.count Tid.main →
        (run (some c) (some b) more (run (some c) (some b) sched State.init)).pc =
          MainPc.done ∧
        (run (some c) (some b) more
          (run (some c) (some b) sched State.init)).client.closed = true ∧
        (run (some c) (some b) more
          (run (some c) (some b) sched State.init)).backend.closed = true ∧
        B2cEnded (run (some c) (some b) more (run (some c) (some b) sched State.init)) ∧
        ((run (some c) (some b) more
          (run (some c) (some b) sched State.init)).trace.filter Event.isDial).length ≤ 1) ∧
    (∀ (k : Nat) (r : ReadRes), b.reads[k]? = some r → r.err = RErr.fail →
      2 * k + 13 ≤ sched.count Tid.main →
      (run (some c) (some b) sched State.init).pc = MainPc.done ∧
      (run (some c) (some b) sched State.init).client.closed = true ∧
      (run (some c) (some b) sched State.init).backend.closed = true ∧
      ((run (some c) (some b) sched State.init).trace.filter Event.isDial).length ≤ 1) ∧
    (((run (some c) (some b) sched State.init).client.closed = true ∨
      (run (some c) (some b) sched State.init).backend.closed = true ∨
      (run (some c) (some b) sched State.init).pc = MainPc.ret ∨
      (run (some c) (some b) sched State.init).pc = MainPc.done) →
      ∃ r, (run (some c) (some b) sched State.init).b2c = some (CopySt.fin r)) ∧
    (∀ s', step (some c) (some b) Tid.copier (run (some c) (some b) sched State.init) =
        some s' →
      s'.pc = (run (some c) (some b) sched State.init).pc ∧
      s'.client.closed = (run (some c) (some b) sched State.init).client.closed ∧
      s'.backend.closed = (run (some c) (some b) sched State.init).backend.closed) ∧
    (∀ e ∈ (run (some c) (some b) sched State.init).trace, e.isLog = true →
      e = Event.logNew c.remoteAddr ∨ e = Event.logConnected c.remoteAddr) := by
  have hp := pcInv_run c (some b) sched
  refine ⟨?_, ?_, ended_of_closed c b _ hp, ?_, ?_⟩
  · intro r hr _ more h4
    have he : B2cEnded (run (some c) (some b) sched State.init) := ⟨r, hr⟩
    obtain ⟨a1, a2, a3, a4⟩ := returns_after_b2c c (some b) _ more hp he h4
    exact ⟨a1, a2, by simpa using a3, (ending_progress c (some b) more _ hp he).2.2,
      dial_count_of_pcInv c (some b) _ a4⟩
  · intro k r hk hr hn
    obtain ⟨a1, a2, a3⟩ :=
      returns_when_backend_ends c b k r hk (by rw [hr]; simp) sched hn
    exact ⟨a1, a2, a3, dial_count_of_pcInv c (some b) _ hp⟩
  · intro s' hs
    simp only [step] at hs
    obtain ⟨f1, -, -, f4, f5, -, -⟩ := copierStep_frame _ _ _ _ hs
    exact ⟨f1, f4, f5⟩
  · intro e he hl
    obtain ⟨k1, -, -, -⟩ := ctl_of_pcInv c (some b) _ hp
    have hm : e ∈ ctl (run (some c) (some b) sched State.init).trace := by
      refine mem_ctl _ e he ?_
      cases e <;> simp [Event.isLog, Event.isCopy] at hl ⊢
    have := k1.subset hm
    simp only [fullCtl, established, opening, Option.isSome_some, if_true,
      List.cons_append, List.nil_append, List.mem_cons, List.mem_singleton,
      List.not_mem_nil, or_false] at this
    rcases this with rfl | rfl | rfl | rfl | rfl | rfl | rfl
    all_goals first | exact Or.inl rfl | exact Or.inr rfl | simp [Event.isLog] at hl

/-- C6 as amended, at the run whose backend read fails: the task returns with
both connections closed. -/
theorem backend_copy_failure_ends_relay_demo :
    failingBackend.reads[0]? = some ⟨[], RErr.fail⟩ ∧
    ((run (some demoClient) (some failingBackend) (List.replicate 13 Tid.main)
        State.init).pc = MainPc.done ∧
      (run (some demoClient) (some failingBackend) (List.replicate 13 Tid.main)
        State.init).client.closed = true ∧
      (run (some demoClient) (some failingBackend) (List.replicate 13 Tid.main)
        State.init).backend.closed = true ∧
      ((run (some demoClient) (some failingBackend) (List.replicate 13 Tid.main)
        State.init).trace.filter Event.isDial).length ≤ 1) :=
  ⟨by decide,
   (backend_copy_failure_ends_relay demoClient failingBackend
      (List.replicate 13 Tid.main)).2.1 0 ⟨[], RErr.fail⟩ (by decide) rfl (by decide)⟩

theorem afterFailedListen_two (n : Nat) (h : 2 ≤ n) :
    afterFailedListen n = afterFailedListen 2 := by
  rcases n with _ | _ | n
  · omega
  · omega
  · rfl

theorem procRun_failed_listen (accepts : List Accepted) (picks : List Pick) (k : Nat) :
    procRun { listen := false, accepts := accepts } picks (afterFailedListen k) =
      afterFailedListen (k + picks.count Pick.loop) := by
  induction picks generalizing k with
  | nil => simp [procRun]
  | cons p ps ih =>
    cases p with
    | loop =>
      simp only [procRun, List.count_cons_self]
      rcases k with _ | _ | k
      · have hs : procStep { listen := false, accepts := accepts } Pick.loop
            (afterFailedListen 0) = some (afterFailedListen 1) := rfl
        rw [hs]
        simp only [ih 1]
        congr 1
        omega
      · have hs : procStep { listen := false, accepts := accepts } Pick.loop
            (afterFailedListen (0 + 1)) = some (afterFailedListen 2) := rfl
        rw [hs]
        simp only [ih 2]
        congr 1
        omega
      · have hs : procStep { listen := false, accepts := accepts } Pick.loop
            (afterFailedListen (k + 1 + 1)) = none := rfl
        rw [hs]
        simp only [ih (k + 1 + 1)]
        rw [afterFailedListen_two (k + 1 + 1 + List.count Pick.loop ps) (by omega),
          afterFailedListen_two (k + 1 + 1 + (List.count Pick.loop ps + 1)) (by omega)]
    | task i t =>
      have hne : (Pick.task i t == Pick.loop) = false := by
        simp [BEq.beq]
      simp only [procRun, List.count_cons, hne]
      have hnone : procStep { listen := false, accepts := accepts } (Pick.task i t)
          (afterFailedListen k) = none := by
        rcases k with _ | _ | k <;>
          simp [afterFailedListen, procStep, taskStep, Proc.init]
      rw [hnone]
      simpa using ih k

/-- C8: if binding the listening socket fails, then under every schedule and
whatever connections are waiting: no relay task is ever started and no
`Accept` ever returns; the second step of `main` (the deferred method call on
the nil listener) panics and ends the process, after which nothing can move. -/
theorem listen_failure_is_fatal (accepts : List Accepted) (picks : List Pick) :
    (procRun { listen := false, accepts := accepts } picks Proc.init).tasks = [] ∧
    (∀ e ∈ (procRun { listen := false, accepts := accepts } picks Proc.init).trace,
      e = ProcEvent.listen "tcp" ":18080" false ∨ e = ProcEvent.panic) ∧
    (2 ≤ picks.count Pick.loop →
      (procRun { listen := false, accepts := accepts } picks Proc.init).aborted = true ∧
      (procRun { listen := false, accepts := accepts } picks Proc.init).trace =
        [ProcEvent.listen "tcp" ":18080" false, ProcEvent.panic] ∧
      ∀ k, procStep { listen := false, accepts := accepts } k
        (procRun { listen := false, accepts := accepts } picks Proc.init) = none) := by
  have h := procRun_failed_listen accepts picks 0
  simp only [afterFailedListen, Nat.zero_add] at h
  rw [h]
  generalize picks.count Pick.loop = n
  rcases n with _ | _ | n
  · simp [afterFailedListen, Proc.init]
  · simp [afterFailedListen]
  · simp [afterFailedListen, procStep]

/-- C5 fails on the code: after a failed `Accept` the relay task started on
the nil connection panics at its first statement and the process is aborted.
The accept loop cannot move although a third client is waiting, and the first
client's relay task, which could move just before, cannot move any more. -/
theorem accept_failure_aborts_process :
    (procRun nilAcceptWorld nilAcceptPicks Proc.init).aborted = false ∧
    (procStep nilAcceptWorld (Pick.task 0 Tid.main)
      (procRun nilAcceptWorld nilAcceptPicks Proc.init)).isSome = true ∧
    (procStep nilAcceptWorld Pick.loop
      (procRun nilAcceptWorld nilAcceptPicks Proc.init)).isSome = true ∧
    (procRun nilAcceptWorld (nilAcceptPicks ++ [Pick.task 1 Tid.main]) Proc.init).aborted =
      true ∧
    ((procRun nilAcceptWorld (nilAcceptPicks ++ [Pick.task 1 Tid.main]) Proc.init).tasks.map
      State.pc) = [MainPc.sleep, MainPc.panicked] ∧
    procStep nilAcceptWorld (Pick.task 0 Tid.main)
      (procRun nilAcceptWorld (nilAcceptPicks ++ [Pick.task 1 Tid.main]) Proc.init) = none ∧
    procStep nilAcceptWorld Pick.loop
      (procRun nilAcceptWorld (nilAcceptPicks ++ [Pick.task 1 Tid.main]) Proc.init) = none := by
  decide

/-- A relay task started on a valid connection never panics, whatever the
dial, the reads and the writes do. -/
theorem valid_connection_never_panics (c : Conn) (dialed : Option Conn) (sched : List Tid) :
    (run (some c) dialed sched State.init).pc ≠ MainPc.panicked := by
  intro h
  have hp := pcInv_run c dialed sched
  unfold PcInv at hp
  simp only [h] at hp

end Proxy
